import Mathlib

/-!
# Circular queue of `CirculaQueueCPX.cpp`

A shallow embedding of `struct CircularQueue` (fixed storage of `CAP` ints, the
indices `front` and `rear`, the element count `size`) and of its methods
`isEmpty`, `isFull`, `nextIndex`, `insertQ`, `removeQ`, together with the
element walk of `printQueue`.

C++ `int` values are modelled as `Int`.  The two ways a C++ call can leave the
defined behaviour of the language are made explicit as the `none` result of an
`Option`: an array access outside `[0, CAP)` and an `int` increment or
decrement that leaves the 32-bit range of the board.

The stack of `Stack.cpp` and the simple queue of `SimpleQueue.cpp` follow the
same conventions; their definitions come after those of the circular queue,
their theorems after its theorems.
-/

namespace CircularQueue

/-- The capacity, `static const int CAP = 10;`. -/
abbrev CAP : Nat := 10

/-- Largest value of an `int` on the 32-bit board the sketch targets. -/
def INT_MAX : Int := 2147483647

/-- Smallest value of an `int` on the 32-bit board the sketch targets. -/
def INT_MIN : Int := -2147483648

/-- The expression `i + 1` on `int`: undefined when the result is not an `int`. -/
def incr (i : Int) : Option Int :=
  if i + 1 ≤ INT_MAX then some (i + 1) else none

/-- The expression `i - 1` on `int`: undefined when the result is not an `int`. -/
def decr (i : Int) : Option Int :=
  if INT_MIN ≤ i - 1 then some (i - 1) else none

end CircularQueue

/-- The fields of `struct CircularQueue`: `int data[CAP]`, `front`, `rear`, `size`. -/
structure CircularQueue where
  data : Fin CircularQueue.CAP → Int
  front : Int
  rear : Int
  size : Int

namespace CircularQueue

/-- The read `data[i]`: defined only for an index inside the array. -/
def readAt (data : Fin CAP → Int) (i : Int) : Option Int :=
  if h : 0 ≤ i ∧ i < (CAP : Int) then some (data ⟨i.toNat, by omega⟩) else none

/-- The write `data[i] = v`: defined only for an index inside the array. -/
def writeAt (data : Fin CAP → Int) (i : Int) (v : Int) : Option (Fin CAP → Int) :=
  if h : 0 ≤ i ∧ i < (CAP : Int) then some (Function.update data ⟨i.toNat, by omega⟩ v)
  else none

/-- A freshly constructed queue: `front = 0`, `rear = 0`, `size = 0`; the
storage holds whatever `d` it held before (all zeros for the global `Q`). -/
def mkQueue (d : Fin CAP → Int) : CircularQueue :=
  { data := d, front := 0, rear := 0, size := 0 }

/-- The query `bool isEmpty() const { return size == 0; }`. -/
def isEmpty (q : CircularQueue) : Bool := q.size == 0

/-- The query `bool isFull() const { return size == CAP; }`. -/
def isFull (q : CircularQueue) : Bool := q.size == (CAP : Int)

/-- The method `nextIndex`: `i += 1; if (i >= CAP) i = 0; return i;`. -/
def nextIndex (i : Int) : Option Int :=
  (incr i).bind fun j => if j ≥ (CAP : Int) then some 0 else some j

/-- The method `insertQ(value)`: blocked when `isFull()`, otherwise
`data[rear] = value; rear = nextIndex(rear); size++;`.  Returns the flag and the
queue after the call. -/
def insertQ (q : CircularQueue) (value : Int) : Option (Bool × CircularQueue) :=
  if q.isFull then some (false, q)
  else
    (writeAt q.data q.rear value).bind fun data1 =>
    (nextIndex q.rear).bind fun rear1 =>
    (incr q.size).bind fun size1 =>
    some (true, { q with data := data1, rear := rear1, size := size1 })

/-- The method `removeQ(removed)`: blocked when `isEmpty()`, otherwise
`removed = data[front]; front = nextIndex(front); size--;`.  Returns the flag,
the caller's variable `removed` after the call, and the queue after the call. -/
def removeQ (q : CircularQueue) (removed : Int) : Option (Bool × Int × CircularQueue) :=
  if q.isEmpty then some (false, removed, q)
  else
    (readAt q.data q.front).bind fun removed1 =>
    (nextIndex q.front).bind fun front1 =>
    (decr q.size).bind fun size1 =>
    some (true, removed1, { q with front := front1, size := size1 })

/-- The loop of `printQueue`: `n` rounds of `data[pos]; pos = nextIndex(pos)`,
collecting the values that are printed. -/
def walk (data : Fin CAP → Int) : Int → Nat → Option (List Int)
  | _, 0 => some []
  | pos, n + 1 =>
    (readAt data pos).bind fun x =>
    (nextIndex pos).bind fun pos1 =>
    (walk data pos1 n).bind fun rest =>
    some (x :: rest)

/-- The elements printed by `printQueue`: nothing when `isEmpty()`, otherwise
the loop `for (k = 0; k < size; ++k)` started at `front`. -/
def snapshot (q : CircularQueue) : Option (List Int) :=
  if q.isEmpty then some [] else walk q.data q.front q.size.toNat

/-! ## Sequences of calls -/

/-- One call made on the queue by `loop()`: button A inserts a value, button B removes. -/
inductive Call where
  | insert (value : Int)
  | remove
  deriving DecidableEq

/-- The queue after one call; `loop()` sets `int removed = 0;` before `removeQ`. -/
def step (q : CircularQueue) : Call → Option CircularQueue
  | Call.insert v => (insertQ q v).map fun r => r.2
  | Call.remove => (removeQ q 0).map fun r => r.2.2

/-- The queue after a finite sequence of calls. -/
def run (q : CircularQueue) : List Call → Option CircularQueue
  | [] => some q
  | c :: cs => (step q c).bind fun q1 => run q1 cs

/-- Consecutive calls `insertQ(v)` for the values of a list, in order: the
flags returned and the queue after the last call. -/
def insertMany (q : CircularQueue) : List Int → Option (List Bool × CircularQueue)
  | [] => some ([], q)
  | v :: vs =>
    (insertQ q v).bind fun r =>
    (insertMany r.2 vs).bind fun rs =>
    some (r.1 :: rs.1, rs.2)

/-- Consecutive calls `removeQ(removed)`, `n` of them, each with `removed = 0`
before the call as in `loop()`: the flag and the value of `removed` after each
call, and the queue after the last call. -/
def removeMany (q : CircularQueue) : Nat → Option (List (Bool × Int) × CircularQueue)
  | 0 => some ([], q)
  | n + 1 =>
    (removeQ q 0).bind fun r =>
    (removeMany r.2.2 n).bind fun rs =>
    some ((r.1, r.2.1) :: rs.1, rs.2)

/-- The array slot reached from index `i` after wrapping modulo `CAP`. -/
def slot (i : Int) : Fin CAP :=
  ⟨(i % (CAP : Int)).toNat, by simp only [CAP, Nat.cast_ofNat]; omega⟩

/-- The live elements: the `size` slots starting at `front`, wrapping at `CAP`. -/
def contents (q : CircularQueue) : List Int :=
  (List.range q.size.toNat).map fun (k : Nat) => q.data (slot (q.front + (k : Int)))

/-- The representation invariant of the queue. -/
def Inv (q : CircularQueue) : Prop :=
  0 ≤ q.front ∧ q.front < (CAP : Int) ∧ 0 ≤ q.size ∧ q.size ≤ (CAP : Int) ∧
    q.rear = (q.front + q.size) % (CAP : Int)

/-! ## Queries -/

/-- The loop of `showQueueLEDs`: `n` rounds of
`setPixelColor(pos, ...); pos = nextIndex(pos)`, collecting the indices of the
pixels that are lit. -/
def ledWalk : Int → Nat → Option (List Int)
  | _, 0 => some []
  | pos, n + 1 =>
    (nextIndex pos).bind fun pos1 =>
    (ledWalk pos1 n).bind fun rest =>
    some (pos :: rest)

/-- The pixels lit by `showQueueLEDs`: the loop `for (k = 0; k < Q.size; ++k)`
started at `Q.front`. -/
def showQueueLEDs (q : CircularQueue) : Option (List Int) :=
  ledWalk q.front q.size.toNat

/-- The read-only operations on the global `Q`. -/
inductive Query where
  | isEmpty
  | isFull
  | printQueue
  | showQueueLEDs
  deriving DecidableEq

/-- The result of a read-only operation: a flag, or a list of numbers (the
elements printed, the pixels lit). -/
inductive Answer where
  | flag (b : Bool)
  | numbers (xs : List Int)
  deriving DecidableEq

/-- One read-only operation on `Q`: its result and `Q` after it.  None of the
four bodies assigns to a field of `Q`. -/
def ask (q : CircularQueue) : Query → Option (Answer × CircularQueue)
  | Query.isEmpty => some (Answer.flag q.isEmpty, q)
  | Query.isFull => some (Answer.flag q.isFull, q)
  | Query.printQueue => (snapshot q).map fun xs => (Answer.numbers xs, q)
  | Query.showQueueLEDs => (showQueueLEDs q).map fun ps => (Answer.numbers ps, q)

/-- A sequence of read-only operations with no `insertQ` or `removeQ` between
them: the results in order and `Q` after the last one. -/
def askMany (q : CircularQueue) : List Query → Option (List Answer × CircularQueue)
  | [] => some ([], q)
  | x :: xs =>
    (ask q x).bind fun r =>
    (askMany r.2 xs).bind fun rs =>
    some (r.1 :: rs.1, rs.2)

/-! ## Observations of a run -/

/-- What one call of `loop()` shows: the flag returned, the value delivered in
`removed` by a successful `removeQ`, and the elements `printQueue` finds after
the call; together with the queue after the call. -/
def stepObs (q : CircularQueue) :
    Call → Option ((Bool × Option Int × List Int) × CircularQueue)
  | Call.insert v =>
    (insertQ q v).bind fun r =>
    (snapshot r.2).bind fun xs =>
    some ((r.1, none, xs), r.2)
  | Call.remove =>
    (removeQ q 0).bind fun r =>
    (snapshot r.2.2).bind fun xs =>
    some ((r.1, if r.1 then some r.2.1 else none, xs), r.2.2)

/-- The observations of a finite sequence of calls, one per call. -/
def trace (q : CircularQueue) : List Call → Option (List (Bool × Option Int × List Int))
  | [] => some []
  | c :: cs =>
    (stepObs q c).bind fun r =>
    (trace r.2 cs).bind fun ts =>
    some (r.1 :: ts)

/-- Reference model of the refinement property, a bounded list queue: the
queue is a list `l`; insert appends `v` iff `length l < CAP`; remove pops the
head iff `l` is non-empty.  The result is the observation (flag, value
removed, list after the call) and the list after the call. -/
def refStep (l : List Int) : Call → (Bool × Option Int × List Int) × List Int
  | Call.insert v =>
    if l.length < CAP then ((true, none, l ++ [v]), l ++ [v]) else ((false, none, l), l)
  | Call.remove =>
    match l with
    | [] => ((false, none, []), [])
    | x :: xs => ((true, some x, xs), xs)

/-- The observations of the reference model for a finite sequence of calls. -/
def refTrace (l : List Int) : List Call → List (Bool × Option Int × List Int)
  | [] => []
  | c :: cs => (refStep l c).1 :: refTrace (refStep l c).2 cs

end CircularQueue

/-!
# Stack of `Stack.cpp`

The globals `stack[CAPACITY]` and `top`, and the functions `isEmpty`,
`isFull`, `printStack`, `push`, `pop`.  Pixels, tones and the text sent to the
serial port are left out; what is computed for that text is kept: the list of
the elements `printStack` reads from the array, and the number `value+1` that
`push` prints.
-/

namespace Stack

/-- The capacity, `const int CAPACITY = 10;`. -/
abbrev CAPACITY : Nat := 10

end Stack

/-- The globals of `Stack.cpp`: `int stack[CAPACITY]` and `int top`. -/
structure Stack where
  stack : Fin Stack.CAPACITY → Int
  top : Int

namespace Stack

open CircularQueue (incr decr readAt writeAt)

/-- The state at start-up: `top = -1`; the array holds `d`. -/
def mkStack (d : Fin CAPACITY → Int) : Stack :=
  { stack := d, top := -1 }

/-- The helper `bool isEmpty() { return top == -1; }`. -/
def isEmpty (s : Stack) : Bool := s.top == -1

/-- The helper `bool isFull() { return top == CAPACITY - 1; }`. -/
def isFull (s : Stack) : Bool := s.top == (CAPACITY : Int) - 1

/-- The loop of `printStack`, `for (i = 0; i <= top; i++)`: `n` rounds of
reading `stack[i]` and `i++`, collecting the values printed. -/
def scan (a : Fin CAPACITY → Int) : Int → Nat → Option (List Int)
  | _, 0 => some []
  | i, n + 1 =>
    (readAt a i).bind fun x =>
    (incr i).bind fun i1 =>
    (scan a i1 n).bind fun rest =>
    some (x :: rest)

/-- The elements printed by `printStack`, bottom to top. -/
def printStack (s : Stack) : Option (List Int) :=
  scan s.stack 0 (s.top + 1).toNat

/-- The function `push(value)`: on a full stack the error branch (result
`none`, nothing changes); otherwise `top++; stack[top] = value;`, then
`Serial.println(value+1)` and `printStack()`.  The result is the number
`value+1` that is printed, an `int` expression like the others, and the
elements printed by `printStack`. -/
def push (s : Stack) (value : Int) : Option (Option (Int × List Int) × Stack) :=
  if s.isFull then some (none, s)
  else
    (incr s.top).bind fun top1 =>
    (writeAt s.stack top1 value).bind fun stack1 =>
    (incr value).bind fun shown =>
    (printStack { stack := stack1, top := top1 }).bind fun xs =>
    some (some (shown, xs), { stack := stack1, top := top1 })

/-- The function `pop()`: on an empty stack the error branch (result `none`,
nothing changes); otherwise `value = stack[top]; top--;` and `printStack()`.
The result is `value` and the elements printed. -/
def pop (s : Stack) : Option (Option (Int × List Int) × Stack) :=
  if s.isEmpty then some (none, s)
  else
    (readAt s.stack s.top).bind fun value =>
    (decr s.top).bind fun top1 =>
    (printStack { s with top := top1 }).bind fun xs =>
    some (some (value, xs), { s with top := top1 })

/-- One call made by `loop()` of `Stack.cpp`, with a free value for `push`. -/
inductive Op where
  | push (value : Int)
  | pop
  deriving DecidableEq

/-- The stack after one call. -/
def step (s : Stack) : Op → Option Stack
  | Op.push v => (push s v).map fun r => r.2
  | Op.pop => (pop s).map fun r => r.2

/-- The stack after a finite sequence of calls. -/
def run (s : Stack) : List Op → Option Stack
  | [] => some s
  | c :: cs => (step s c).bind fun s1 => run s1 cs

/-- Consecutive calls `push(v)` for the values of a list: whether each was
stored, and the stack after the last call. -/
def pushMany (s : Stack) : List Int → Option (List Bool × Stack)
  | [] => some ([], s)
  | v :: vs =>
    (push s v).bind fun r =>
    (pushMany r.2 vs).bind fun rs =>
    some (r.1.isSome :: rs.1, rs.2)

/-- Consecutive calls `pop()`, `n` of them: the value read by each (`none`
for a blocked call), and the stack after the last call. -/
def popMany (s : Stack) : Nat → Option (List (Option Int) × Stack)
  | 0 => some ([], s)
  | n + 1 =>
    (pop s).bind fun r =>
    (popMany r.2 n).bind fun rs =>
    some (r.1.map (fun p => p.1) :: rs.1, rs.2)

/-- The elements of the stack, bottom to top: slots `0..top`. -/
def items (s : Stack) : List Int :=
  (List.range (s.top + 1).toNat).map fun (k : Nat) => s.stack (CircularQueue.slot (k : Int))

/-- The bounds of `top`. -/
def Inv (s : Stack) : Prop := -1 ≤ s.top ∧ s.top ≤ 9

end Stack

/-!
# Simple queue of `SimpleQueue.cpp`

The globals `queueArr[CAPACITY]`, `frontIdx`, `rearIdx`, `nextValue`, and the
functions `isEmpty`, `isFull`, `printQueue`, `insertQ`, `removeQ`,
`resetIfEmpty` and the two button branches of `loop()`.  Pixels, tones and the
text sent to the serial port are left out; what `printQueue` reads from the
array is kept, as the list of the elements it prints.
-/

namespace SimpleQueue

/-- The capacity, `const int CAPACITY = 10;`. -/
abbrev CAPACITY : Nat := 10

end SimpleQueue

/-- The globals of `SimpleQueue.cpp`. -/
structure SimpleQueue where
  queueArr : Fin SimpleQueue.CAPACITY → Int
  frontIdx : Int
  rearIdx : Int
  nextValue : Int

namespace SimpleQueue

open CircularQueue (incr decr readAt writeAt Call)

/-- The state at start-up: `frontIdx = 0`, `rearIdx = -1`, `nextValue = 0`;
the array holds `d`. -/
def mkSimple (d : Fin CAPACITY → Int) : SimpleQueue :=
  { queueArr := d, frontIdx := 0, rearIdx := -1, nextValue := 0 }

/-- The helper `isEmpty`: `return frontIdx > rearIdx;`. -/
def isEmpty (s : SimpleQueue) : Bool := decide (s.frontIdx > s.rearIdx)

/-- The helper `isFull`: `return rearIdx == CAPACITY - 1;`. -/
def isFull (s : SimpleQueue) : Bool := s.rearIdx == (CAPACITY : Int) - 1

/-- The loop of `printQueue`, `for (i = frontIdx; i <= rearIdx; i++)`: `n`
rounds of reading `queueArr[i]` and `i++`, collecting the values printed. -/
def scan (a : Fin CAPACITY → Int) : Int → Nat → Option (List Int)
  | _, 0 => some []
  | i, n + 1 =>
    (readAt a i).bind fun x =>
    (incr i).bind fun i1 =>
    (scan a i1 n).bind fun rest =>
    some (x :: rest)

/-- The elements printed by `printQueue`: nothing when `isEmpty()`, otherwise
`queueArr[frontIdx..rearIdx]`. -/
def printQueue (s : SimpleQueue) : Option (List Int) :=
  if s.isEmpty then some []
  else scan s.queueArr s.frontIdx (s.rearIdx - s.frontIdx + 1).toNat

/-- The function `insertQ(value)`: on a full queue the error branch (result
`none`, nothing changes); otherwise `rearIdx++; queueArr[rearIdx] = value;`
and `printQueue()`, whose elements are the result. -/
def insertQ (s : SimpleQueue) (value : Int) : Option (Option (List Int) × SimpleQueue) :=
  if s.isFull then some (none, s)
  else
    (incr s.rearIdx).bind fun rear1 =>
    (writeAt s.queueArr rear1 value).bind fun arr1 =>
    (printQueue { s with queueArr := arr1, rearIdx := rear1 }).bind fun xs =>
    some (some xs, { s with queueArr := arr1, rearIdx := rear1 })

/-- The function `removeQ()`: on an empty queue the error branch (result
`none`, nothing changes); otherwise `value = queueArr[frontIdx]; frontIdx++;`
and `printQueue()`.  The result is `value` and the elements printed. -/
def removeQ (s : SimpleQueue) : Option (Option (Int × List Int) × SimpleQueue) :=
  if s.isEmpty then some (none, s)
  else
    (readAt s.queueArr s.frontIdx).bind fun value =>
    (incr s.frontIdx).bind fun front1 =>
    (printQueue { s with frontIdx := front1 }).bind fun xs =>
    some (some (value, xs), { s with frontIdx := front1 })

/-- The function `resetIfEmpty()`: `if (isEmpty()) { frontIdx = 0; rearIdx = -1; }`. -/
def resetIfEmpty (s : SimpleQueue) : SimpleQueue :=
  if s.isEmpty then { s with frontIdx := 0, rearIdx := -1 } else s

/-- One call of one of the three functions that write the indices. -/
inductive Op where
  | insertQ (value : Int)
  | removeQ
  | resetIfEmpty
  deriving DecidableEq

/-- The state after one call of `insertQ`, `removeQ` or `resetIfEmpty`. -/
def apply (s : SimpleQueue) : Op → Option SimpleQueue
  | Op.insertQ v => (insertQ s v).map fun r => r.2
  | Op.removeQ => (removeQ s).map fun r => r.2
  | Op.resetIfEmpty => some (resetIfEmpty s)

/-- The state after a finite sequence of such calls, in any order. -/
def applyAll (s : SimpleQueue) : List Op → Option SimpleQueue
  | [] => some s
  | c :: cs => (apply s c).bind fun s1 => applyAll s1 cs

/-- One step of `loop()` with a free value for the insert: button A calls
`insertQ`, button B calls `removeQ()` and then `resetIfEmpty()`. -/
def loopStep (s : SimpleQueue) : Call → Option SimpleQueue
  | Call.insert v => (insertQ s v).map fun r => r.2
  | Call.remove => (removeQ s).map fun r => resetIfEmpty r.2

/-- The state after a finite sequence of `loop()` steps. -/
def loopRun (s : SimpleQueue) : List Call → Option SimpleQueue
  | [] => some s
  | c :: cs => (loopStep s c).bind fun s1 => loopRun s1 cs

/-- Consecutive calls `insertQ(v)` for the values of a list: whether each was
stored, and the state after the last call. -/
def insertMany (s : SimpleQueue) : List Int → Option (List Bool × SimpleQueue)
  | [] => some ([], s)
  | v :: vs =>
    (insertQ s v).bind fun r =>
    (insertMany r.2 vs).bind fun rs =>
    some (r.1.isSome :: rs.1, rs.2)

/-- Consecutive remove steps of `loop()`, `n` of them, each `removeQ()`
followed by `resetIfEmpty()`: the value removed by each (`none` for a blocked
call), and the state after the last step. -/
def removeMany (s : SimpleQueue) : Nat → Option (List (Option Int) × SimpleQueue)
  | 0 => some ([], s)
  | n + 1 =>
    (removeQ s).bind fun r =>
    (removeMany (resetIfEmpty r.2) n).bind fun rs =>
    some (r.1.map (fun p => p.1) :: rs.1, rs.2)

/-- What one step of `loop()` shows: whether the call went through, the value
removed by a successful `removeQ`, and the elements `queueArr[frontIdx..rearIdx]`
after the step; together with the state after the step. -/
def stepObs (s : SimpleQueue) :
    Call → Option ((Bool × Option Int × List Int) × SimpleQueue)
  | Call.insert v =>
    (insertQ s v).bind fun r =>
    (printQueue r.2).bind fun xs =>
    some ((r.1.isSome, none, xs), r.2)
  | Call.remove =>
    (removeQ s).bind fun r =>
    (printQueue (resetIfEmpty r.2)).bind fun xs =>
    some ((r.1.isSome, r.1.map (fun p => p.1), xs), resetIfEmpty r.2)

/-- The observations of a finite sequence of `loop()` steps, one per step. -/
def trace (s : SimpleQueue) : List Call → Option (List (Bool × Option Int × List Int))
  | [] => some []
  | c :: cs =>
    (stepObs s c).bind fun r =>
    (trace r.2 cs).bind fun ts =>
    some (r.1 :: ts)

/-- Whether no `insertQ` of the sequence finds the queue full. -/
def insertsPass (s : SimpleQueue) : List Call → Bool
  | [] => true
  | Call.insert v :: cs =>
    !s.isFull && (match loopStep s (Call.insert v) with
      | some s1 => insertsPass s1 cs
      | none => false)
  | Call.remove :: cs =>
    match loopStep s Call.remove with
    | some s1 => insertsPass s1 cs
    | none => false

/-- The two buttons polled by `loop()`. -/
inductive Button where
  | A
  | B
  deriving DecidableEq

/-- One button branch of `loop()`.  Button A: `insertQ(nextValue++)`, the
argument is the old `nextValue` and the counter is advanced before the body
runs; the result records the argument and whether it was stored.  Button B:
`removeQ(); resetIfEmpty();`. -/
def press (s : SimpleQueue) : Button → Option (Option (Int × Bool) × SimpleQueue)
  | Button.A =>
    (incr s.nextValue).bind fun next1 =>
    (insertQ { s with nextValue := next1 } s.nextValue).bind fun r =>
    some (some (s.nextValue, r.1.isSome), r.2)
  | Button.B =>
    (removeQ s).bind fun r =>
    some (none, resetIfEmpty r.2)

/-- A finite sequence of button events: the arguments of the `insertQ` calls
in order, each with whether it was stored, and the state after the last event. -/
def drive (s : SimpleQueue) : List Button → Option (List (Int × Bool) × SimpleQueue)
  | [] => some ([], s)
  | b :: bs =>
    (press s b).bind fun r =>
    (drive r.2 bs).bind fun rs =>
    some (r.1.toList ++ rs.1, rs.2)

/-- The values actually stored, in order: the arguments of the `insertQ`
calls that were not blocked. -/
def stored (log : List (Int × Bool)) : List Int :=
  (log.filter fun p => p.2).map fun p => p.1

/-- The live elements: slots `frontIdx..rearIdx`. -/
def live (s : SimpleQueue) : List Int :=
  (List.range (s.rearIdx - s.frontIdx + 1).toNat).map fun (k : Nat) =>
    s.queueArr (CircularQueue.slot (s.frontIdx + (k : Int)))

/-- The bounds of the two indices. -/
def Inv (s : SimpleQueue) : Prop :=
  0 ≤ s.frontIdx ∧ s.frontIdx ≤ s.rearIdx + 1 ∧ s.rearIdx + 1 ≤ 10

/-- The bounds of the two indices, together with what `resetIfEmpty` leaves
after a step of `loop()`: an empty queue has `frontIdx = 0` and `rearIdx = -1`. -/
def LoopInv (s : SimpleQueue) : Prop :=
  Inv s ∧ (s.rearIdx < s.frontIdx → s.frontIdx = 0 ∧ s.rearIdx = -1)

/-- The state of the counter and of the newest element under `loop()`: the
live elements increase by one from each to the next, and while the array has
room at the rear the newest live element is `nextValue - 1`. -/
def DemoInv (s : SimpleQueue) : Prop :=
  LoopInv s ∧ List.Chain' (fun a b => b = a + 1) (live s) ∧
    (s.rearIdx < 9 → ∀ x, (live s).getLast? = some x → x = s.nextValue - 1)

end SimpleQueue

namespace CircularQueue

/-! ## Single calls -/

theorem cap_cast : ((CAP : Nat) : Int) = 10 := rfl

theorem incr_eq (i : Int) (h : i < (CAP : Int)) : incr i = some (i + 1) := by
  rw [cap_cast] at h
  unfold incr INT_MAX
  rw [if_pos (by omega)]

theorem decr_eq (i : Int) (h : 0 < i) : decr i = some (i - 1) := by
  unfold decr INT_MIN
  rw [if_pos (by omega)]

theorem nextIndex_eq (i : Int) (h0 : 0 ≤ i) (h : i < (CAP : Int)) :
    nextIndex i = some ((i + 1) % (CAP : Int)) := by
  unfold nextIndex
  rw [incr_eq i h]
  simp only [Option.some_bind, cap_cast] at h ⊢
  split
  · congr 1; omega
  · congr 1; omega

theorem readAt_eq (d : Fin CAP → Int) (i : Int) (h0 : 0 ≤ i) (h : i < (CAP : Int)) :
    readAt d i = some (d (slot i)) := by
  unfold readAt
  rw [dif_pos ⟨h0, h⟩]
  congr 2
  apply Fin.ext
  simp only [slot, cap_cast] at h ⊢
  congr 1
  omega

theorem writeAt_eq (d : Fin CAP → Int) (i v : Int) (h0 : 0 ≤ i) (h : i < (CAP : Int)) :
    writeAt d i v = some (Function.update d (slot i) v) := by
  have hi : (⟨i.toNat, by omega⟩ : Fin CAP) = slot i := by
    apply Fin.ext
    simp only [slot, cap_cast] at h ⊢
    congr 1
    omega
  unfold writeAt
  rw [dif_pos ⟨h0, h⟩, hi]

theorem insertQ_eq (q : CircularQueue) (v : Int) (hs : q.size < (CAP : Int))
    (hr0 : 0 ≤ q.rear) (hr : q.rear < (CAP : Int)) :
    insertQ q v = some (true, { q with data := Function.update q.data (slot q.rear) v,
                                       rear := (q.rear + 1) % (CAP : Int),
                                       size := q.size + 1 }) := by
  have hf : q.isFull = false := by
    simp only [isFull, beq_eq_false_iff_ne, ne_eq]; omega
  unfold insertQ
  rw [hf, writeAt_eq _ _ _ hr0 hr, nextIndex_eq _ hr0 hr, incr_eq _ hs]
  rfl

theorem removeQ_eq (q : CircularQueue) (r : Int) (hs : 0 < q.size)
    (hf0 : 0 ≤ q.front) (hf : q.front < (CAP : Int)) :
    removeQ q r = some (true, q.data (slot q.front),
      { q with front := (q.front + 1) % (CAP : Int), size := q.size - 1 }) := by
  have he : q.isEmpty = false := by
    simp only [isEmpty, beq_eq_false_iff_ne, ne_eq]; omega
  unfold removeQ
  rw [he, readAt_eq _ _ hf0 hf, nextIndex_eq _ hf0 hf, decr_eq _ hs]
  rfl

/-! ## The invariant and the live elements -/

theorem slot_eq_iff (i j : Int) : slot i = slot j ↔ i % 10 = j % 10 := by
  simp only [slot, cap_cast, Fin.mk.injEq]
  omega

theorem inv_mkQueue (d : Fin CAP → Int) : Inv (mkQueue d) := by
  simp only [Inv, mkQueue, cap_cast]
  omega

theorem contents_mkQueue (d : Fin CAP → Int) : contents (mkQueue d) = [] := by
  simp [contents, mkQueue]

theorem inv_rear (q : CircularQueue) (h : Inv q) : 0 ≤ q.rear ∧ q.rear < (CAP : Int) := by
  simp only [Inv, cap_cast] at h ⊢
  omega

theorem length_contents (q : CircularQueue) : (contents q).length = q.size.toNat := by
  simp [contents]

theorem insertQ_inv (q : CircularQueue) (v : Int) (h : Inv q) (hs : q.size < (CAP : Int)) :
    ∃ q1, insertQ q v = some (true, q1) ∧ Inv q1 ∧ q1.size = q.size + 1 ∧
      q1.front = q.front ∧ contents q1 = contents q ++ [v] := by
  obtain ⟨hr0, hr⟩ := inv_rear q h
  refine ⟨_, insertQ_eq q v hs hr0 hr, ?_, rfl, rfl, ?_⟩
  · simp only [Inv, cap_cast] at h hs ⊢
    omega
  · obtain ⟨hf0, hf, hs0, _, hrear⟩ := h
    simp only [cap_cast] at hs hf hrear
    have hn : (q.size + 1).toNat = q.size.toNat + 1 := by omega
    simp only [contents, hn, List.range_succ, List.map_append, List.map_cons, List.map_nil]
    congr 1
    · apply List.map_congr_left
      intro k hk
      rw [List.mem_range] at hk
      apply Function.update_noteq
      rw [Ne, slot_eq_iff]
      omega
    · have he : slot (q.front + (q.size.toNat : Int)) = slot q.rear := by
        rw [slot_eq_iff]; omega
      rw [he, Function.update_same]

theorem removeQ_inv (q : CircularQueue) (r : Int) (h : Inv q) (hs : 0 < q.size) :
    ∃ x q1, removeQ q r = some (true, x, q1) ∧ Inv q1 ∧ q1.size = q.size - 1 ∧
      q1.rear = q.rear ∧ q1.data = q.data ∧ contents q = x :: contents q1 := by
  obtain ⟨hf0, hf, hs0, hsc, hrear⟩ := h
  refine ⟨_, _, removeQ_eq q r hs hf0 hf, ?_, rfl, rfl, rfl, ?_⟩
  · simp only [Inv, cap_cast] at hf hsc hrear ⊢
    omega
  · simp only [cap_cast] at hf hsc hrear
    have hn : q.size.toNat = (q.size - 1).toNat + 1 := by omega
    simp only [contents, cap_cast]
    rw [hn, List.range_succ_eq_map, List.map_cons, List.map_map]
    congr 1
    · congr 1
      rw [slot_eq_iff]; omega
    · apply List.map_congr_left
      intro k _
      simp only [Function.comp_apply]
      congr 1
      rw [slot_eq_iff]
      push_cast
      omega

theorem insertQ_full_eq (q : CircularQueue) (v : Int) (h : q.size = (CAP : Int)) :
    insertQ q v = some (false, q) := by
  have hf : q.isFull = true := by simp only [isFull, h, beq_self_eq_true]
  unfold insertQ
  rw [if_pos hf]

theorem removeQ_empty_eq (q : CircularQueue) (r : Int) (h : q.size = 0) :
    removeQ q r = some (false, r, q) := by
  have he : q.isEmpty = true := by simp only [isEmpty, h, beq_self_eq_true]
  unfold removeQ
  rw [if_pos he]

theorem walk_eq (d : Fin CAP → Int) (n : Nat) :
    ∀ pos : Int, 0 ≤ pos → pos < (CAP : Int) →
      walk d pos n = some ((List.range n).map fun (k : Nat) => d (slot (pos + (k : Int)))) := by
  induction n with
  | zero => intro pos _ _; rfl
  | succ n ih =>
    intro pos h0 h
    have h1 : 0 ≤ (pos + 1) % (CAP : Int) ∧ (pos + 1) % (CAP : Int) < (CAP : Int) := by
      simp only [cap_cast]; omega
    unfold walk
    rw [readAt_eq d pos h0 h, nextIndex_eq pos h0 h]
    simp only [Option.some_bind]
    rw [ih _ h1.1 h1.2]
    simp only [Option.some_bind, cap_cast]
    rw [List.range_succ_eq_map, List.map_cons, List.map_map]
    congr 2
    · congr 1
      rw [slot_eq_iff]; omega
    · apply List.map_congr_left
      intro k _
      simp only [Function.comp_apply]
      congr 1
      rw [slot_eq_iff]
      push_cast
      omega

theorem snapshot_eq (q : CircularQueue) (h : Inv q) : snapshot q = some (contents q) := by
  unfold snapshot
  split
  · rename_i he
    have hz : q.size = 0 := by simpa [isEmpty] using he
    simp [contents, hz]
  · rw [walk_eq q.data q.size.toNat q.front h.1 h.2.1]
    rfl

theorem step_inv (q : CircularQueue) (c : Call) (h : Inv q) :
    ∃ q1, step q c = some q1 ∧ Inv q1 := by
  cases c with
  | insert v =>
    by_cases hs : q.size < (CAP : Int)
    · obtain ⟨q1, he, hi, _⟩ := insertQ_inv q v h hs
      exact ⟨q1, by simp only [step, he, Option.map_some'], hi⟩
    · have hc : q.size = (CAP : Int) := le_antisymm h.2.2.2.1 (not_lt.mp hs)
      exact ⟨q, by simp only [step, insertQ_full_eq q v hc, Option.map_some'], h⟩
  | remove =>
    by_cases hs : 0 < q.size
    · obtain ⟨x, q1, he, hi, _⟩ := removeQ_inv q 0 h hs
      exact ⟨q1, by simp only [step, he, Option.map_some'], hi⟩
    · have hc : q.size = 0 := le_antisymm (not_lt.mp hs) h.2.2.1
      exact ⟨q, by simp only [step, removeQ_empty_eq q 0 hc, Option.map_some'], h⟩

theorem run_inv (cs : List Call) :
    ∀ q : CircularQueue, Inv q → ∃ q1, run q cs = some q1 ∧ Inv q1 := by
  induction cs with
  | nil => intro q h; exact ⟨q, rfl, h⟩
  | cons c cs ih =>
    intro q h
    obtain ⟨q1, hstep, h1⟩ := step_inv q c h
    obtain ⟨q2, hrun, h2⟩ := ih q1 h1
    exact ⟨q2, by simp only [run, hstep, Option.some_bind, hrun], h2⟩

theorem run_inv_of_eq (d : Fin CAP → Int) (cs : List Call) (q : CircularQueue)
    (h : run (mkQueue d) cs = some q) : Inv q := by
  obtain ⟨q1, hrun, h1⟩ := run_inv cs (mkQueue d) (inv_mkQueue d)
  rw [hrun] at h
  cases h
  exact h1

theorem insertMany_inv (vs : List Int) :
    ∀ q : CircularQueue, Inv q → q.size + (vs.length : Int) ≤ (CAP : Int) →
      ∃ q1, insertMany q vs = some (List.replicate vs.length true, q1) ∧ Inv q1 ∧
        q1.size = q.size + (vs.length : Int) ∧ q1.front = q.front ∧
        contents q1 = contents q ++ vs := by
  induction vs with
  | nil => intro q h _; exact ⟨q, rfl, h, by simp, rfl, by simp⟩
  | cons v vs ih =>
    intro q h hlen
    simp only [List.length_cons, Nat.cast_add, Nat.cast_one] at hlen
    obtain ⟨q1, he, hi, hsz, hfr, hc⟩ := insertQ_inv q v h (by omega)
    obtain ⟨q2, he2, hi2, hsz2, hfr2, hc2⟩ := ih q1 hi (by omega)
    refine ⟨q2, ?_, hi2, ?_, by rw [hfr2, hfr], ?_⟩
    · simp only [insertMany, he, Option.some_bind, he2, List.length_cons, List.replicate_succ]
    · simp only [List.length_cons, Nat.cast_add, Nat.cast_one]; omega
    · rw [hc2, hc, List.append_assoc, List.singleton_append]

theorem removeMany_inv (n : Nat) :
    ∀ q : CircularQueue, Inv q → (n : Int) ≤ q.size →
      ∃ q1, removeMany q n = some (((contents q).take n).map fun x => (true, x), q1) ∧
        Inv q1 ∧ q1.size = q.size - (n : Int) ∧ q1.rear = q.rear ∧ q1.data = q.data ∧
        contents q1 = (contents q).drop n := by
  induction n with
  | zero => intro q h _; exact ⟨q, rfl, h, by simp, rfl, rfl, rfl⟩
  | succ n ih =>
    intro q h hlen
    simp only [Nat.cast_add, Nat.cast_one] at hlen
    obtain ⟨x, q1, he, hi, hsz, hre, hd, hc⟩ := removeQ_inv q 0 h (by omega)
    obtain ⟨q2, he2, hi2, hsz2, hre2, hd2, hc2⟩ := ih q1 hi (by omega)
    refine ⟨q2, ?_, hi2, ?_, by rw [hre2, hre], by rw [hd2, hd], ?_⟩
    · simp only [removeMany, he, Option.some_bind, he2, hc, List.take_succ_cons, List.map_cons]
    · simp only [Nat.cast_add, Nat.cast_one]; omega
    · rw [hc2, hc, List.drop_succ_cons]

theorem slot_eq_of_val (j : Fin CAP) (i : Int) (h0 : 0 ≤ i) (h : i < (CAP : Int)) :
    j = slot i ↔ (j.val : Int) = i := by
  rw [Fin.ext_iff]
  simp only [slot, cap_cast] at h ⊢
  omega

/-! ## Blocked calls -/

/-- C1: `insertQ` on a full queue (`size == CAP`) returns `false` and leaves
the whole object, that is `data` in all its slots, `front`, `rear` and `size`,
exactly as it was, whatever the value and whatever the other fields are. -/
theorem insertQ_full_noop (q : CircularQueue) (v : Int) (h : q.size = (CAP : Int)) :
    insertQ q v = some (false, q) ∧
      ∀ b q1, insertQ q v = some (b, q1) →
        b = false ∧ q1.data = q.data ∧ q1.front = q.front ∧ q1.rear = q.rear ∧
          q1.size = q.size := by
  have he := insertQ_full_eq q v h
  refine ⟨he, ?_⟩
  intro b q1 h1
  rw [he] at h1
  cases h1
  exact ⟨rfl, rfl, rfl, rfl, rfl⟩

theorem insertQ_full_noop_witness :
    (CircularQueue.mk (fun _ => 4) 3 3 10).size = (CAP : Int) ∧
      insertQ (CircularQueue.mk (fun _ => 4) 3 3 10) 7 =
        some (false, CircularQueue.mk (fun _ => 4) 3 3 10) :=
  ⟨rfl, (insertQ_full_noop (CircularQueue.mk (fun _ => 4) 3 3 10) 7 rfl).1⟩

/-- C2: `removeQ` on an empty queue (`size == 0`) returns `false`, leaves
`data`, `front`, `rear` and `size` as they were and leaves the caller's
variable `removed` at the value it had before the call; the freshly
constructed queue is one such state. -/
theorem removeQ_empty_noop (q : CircularQueue) (removed : Int) (h : q.size = 0) :
    removeQ q removed = some (false, removed, q) ∧
      ∀ d : Fin CAP → Int, removeQ (mkQueue d) removed = some (false, removed, mkQueue d) :=
  ⟨removeQ_empty_eq q removed h, fun d => removeQ_empty_eq (mkQueue d) removed rfl⟩

theorem removeQ_empty_noop_witness :
    (CircularQueue.mk (fun _ => 4) 6 6 0).size = 0 ∧
      removeQ (CircularQueue.mk (fun _ => 4) 6 6 0) 99 =
        some (false, 99, CircularQueue.mk (fun _ => 4) 6 6 0) :=
  ⟨rfl, (removeQ_empty_noop (CircularQueue.mk (fun _ => 4) 6 6 0) 99 rfl).1⟩

/-! ## Successful calls -/

/-- C7: with `size < CAP` and `0 <= rear < CAP`, `insertQ(v)` returns `true`;
afterwards slot `rear` of `data` holds `v` and every other slot is unchanged,
`rear` is `(rear + 1) mod CAP`, `size` is one more and `front` is unchanged. -/
theorem insertQ_success (q : CircularQueue) (v : Int) (hs : q.size < (CAP : Int))
    (hr0 : 0 ≤ q.rear) (hr : q.rear < (CAP : Int)) :
    ∃ q1, insertQ q v = some (true, q1) ∧
      (∀ j : Fin CAP, q1.data j = if (j.val : Int) = q.rear then v else q.data j) ∧
      q1.rear = (q.rear + 1) % (CAP : Int) ∧ q1.size = q.size + 1 ∧ q1.front = q.front := by
  refine ⟨_, insertQ_eq q v hs hr0 hr, ?_, rfl, rfl, rfl⟩
  intro j
  simp only [Function.update_apply, slot_eq_of_val j q.rear hr0 hr]

theorem insertQ_success_witness :
    ∃ q1, insertQ (CircularQueue.mk (fun _ => 4) 8 9 1) 7 = some (true, q1) ∧
      (∀ j : Fin CAP, q1.data j = if (j.val : Int) = 9 then 7 else 4) ∧
      q1.rear = (9 + 1) % (CAP : Int) ∧ q1.size = 1 + 1 ∧ q1.front = 8 :=
  insertQ_success (CircularQueue.mk (fun _ => 4) 8 9 1) 7 (by decide) (by decide) (by decide)

/-- C8: with `size > 0` and `0 <= front < CAP`, `removeQ` returns `true` with
`removed == data[front]` for the old `front`; afterwards `front` is
`(front + 1) mod CAP`, `size` is one less, `rear` and `data` are unchanged. -/
theorem removeQ_success (q : CircularQueue) (removed : Int) (hs : 0 < q.size)
    (hf0 : 0 ≤ q.front) (hf : q.front < (CAP : Int)) :
    ∃ q1, removeQ q removed = some (true, q.data ⟨q.front.toNat, by omega⟩, q1) ∧
      q1.front = (q.front + 1) % (CAP : Int) ∧ q1.size = q.size - 1 ∧
      q1.rear = q.rear ∧ q1.data = q.data := by
  refine ⟨{ q with front := (q.front + 1) % (CAP : Int), size := q.size - 1 },
    ?_, rfl, rfl, rfl, rfl⟩
  rw [removeQ_eq q removed hs hf0 hf]
  have hi : (⟨q.front.toNat, by omega⟩ : Fin CAP) = slot q.front := by
    rw [slot_eq_of_val _ _ hf0 hf]
    simp only [Int.toNat_of_nonneg hf0]
  rw [hi]

theorem removeQ_success_witness :
    ∃ q1, removeQ (CircularQueue.mk (fun j => (j.val : Int) + 20) 9 1 2) 0 =
        some (true, 29, q1) ∧
      q1.front = (9 + 1) % (CAP : Int) ∧ q1.size = 2 - 1 ∧ q1.rear = 1 ∧
      q1.data = fun j => (j.val : Int) + 20 :=
  removeQ_success (CircularQueue.mk (fun j => (j.val : Int) + 20) 9 1 2) 0
    (by decide) (by decide) (by decide)

/-! ## Ordering -/

/-- C3: FIFO ordering.  From any empty state reached from the initial state by
calls of `insertQ` and `removeQ` (so `front` may stand at any index), for
`n <= CAP` values `v1..vn`: the `n` calls `insertQ(vi)` all return `true`, the
following `n` calls of `removeQ` all return `true` and deliver `v1, ..., vn`
in that order, and the queue is empty again. -/
theorem fifo_order (d : Fin CAP → Int) (cs : List Call) (q : CircularQueue) (vs : List Int)
    (hrun : run (mkQueue d) cs = some q) (hempty : q.size = 0) (hn : vs.length ≤ CAP) :
    ∃ q1 q2, insertMany q vs = some (List.replicate vs.length true, q1) ∧
      removeMany q1 vs.length = some (vs.map fun v => (true, v), q2) ∧
      q2.size = 0 ∧ q2.isEmpty = true := by
  have hn' : vs.length ≤ 10 := hn
  have hq : Inv q := run_inv_of_eq d cs q hrun
  have hc : contents q = [] := by simp [contents, hempty]
  obtain ⟨q1, hins, h1, hs1, _, hc1⟩ :=
    insertMany_inv vs q hq (by rw [hempty, cap_cast]; omega)
  obtain ⟨q2, hrem, _, hs2, _, _, _⟩ :=
    removeMany_inv vs.length q1 h1 (by rw [hs1, hempty]; omega)
  have hz : q2.size = 0 := by rw [hs2, hs1, hempty]; omega
  refine ⟨q1, q2, hins, ?_, hz, ?_⟩
  · rw [hrem, hc1, hc, List.nil_append, List.take_length]
  · simp only [isEmpty, hz, beq_self_eq_true]

theorem fifo_order_witness :
    ∃ q, run (mkQueue fun _ => 0) [Call.insert 5, Call.insert 6, Call.remove, Call.remove]
        = some q ∧ q.size = 0 ∧ q.front = 2 ∧
      ∃ q1 q2, insertMany q [11, 12, 13] = some ([true, true, true], q1) ∧
        removeMany q1 3 = some ([(true, 11), (true, 12), (true, 13)], q2) ∧
        q2.size = 0 ∧ q2.isEmpty = true :=
  ⟨_, rfl, rfl, rfl,
    fifo_order (fun _ => 0) [Call.insert 5, Call.insert 6, Call.remove, Call.remove] _
      [11, 12, 13] rfl rfl (by decide)⟩

/-- C4: wraparound.  From the initial state, for `k < CAP`, values `a1..aCAP`
and `b1..bk`: the `CAP` inserts of the `a` all return `true`, `k` removes
return `a1..ak`, the `k` inserts of the `b` all return `true`, and `CAP`
further removes return `a(k+1), ..., aCAP, b1, ..., bk` in that order; the
queue is then empty, and `rear` stood at index `0` again after the first `CAP`
inserts. -/
theorem wraparound_order (d : Fin CAP → Int) (k : Nat) (as bs : List Int)
    (hk : k < CAP) (ha : as.length = CAP) (hb : bs.length = k) :
    ∃ q1 q2 q3 q4,
      insertMany (mkQueue d) as = some (List.replicate CAP true, q1) ∧
      removeMany q1 k = some ((as.take k).map fun v => (true, v), q2) ∧
      insertMany q2 bs = some (List.replicate k true, q3) ∧
      removeMany q3 CAP = some ((as.drop k ++ bs).map fun v => (true, v), q4) ∧
      q1.rear = 0 ∧ q3.rear = (k : Int) ∧ q4.size = 0 := by
  have hk' : k < 10 := hk
  have ha' : as.length = 10 := ha
  obtain ⟨q1, hi1, h1, hs1, hf1, hc1⟩ :=
    insertMany_inv as (mkQueue d) (inv_mkQueue d) (by rw [ha]; simp [mkQueue])
  rw [contents_mkQueue, List.nil_append] at hc1
  have hs1' : q1.size = 10 := by rw [hs1, ha]; rfl
  obtain ⟨q2, hr2, h2, hs2, hre2, _, hc2⟩ :=
    removeMany_inv k q1 h1 (by rw [hs1']; omega)
  obtain ⟨q3, hi3, h3, hs3, hf3, hc3⟩ :=
    insertMany_inv bs q2 h2 (by rw [hs2, hs1', hb, cap_cast]; omega)
  have hs3' : q3.size = 10 := by rw [hs3, hs2, hs1', hb]; omega
  obtain ⟨q4, hr4, _, hs4, _, _, _⟩ :=
    removeMany_inv CAP q3 h3 (by rw [hs3']; rfl)
  have hlen : (as.drop k ++ bs).length = CAP := by
    rw [List.length_append, List.length_drop, ha', hb]
    show 10 - k + k = 10
    omega
  rw [ha] at hi1
  rw [hb] at hi3
  refine ⟨q1, q2, q3, q4, hi1, ?_, hi3, ?_, ?_, ?_, ?_⟩
  · rw [hr2, hc1]
  · rw [hr4, hc3, hc2, hc1, ← hlen, List.take_length]
  · have hr := h1.2.2.2.2
    have hfz : q1.front = 0 := hf1
    rw [hr, hfz, hs1']; rfl
  · have hr := h3.2.2.2.2
    have hfr := h2.2.2.2.2
    have hf2 := h2.1
    have hf2' := h2.2.1
    have hrz : q1.rear = 0 := by
      have hr1 := h1.2.2.2.2
      have hfz : q1.front = 0 := hf1
      rw [hr1, hfz, hs1']; rfl
    rw [hre2, hrz, hs2, hs1', cap_cast] at hfr
    rw [hr, hf3, hs3', cap_cast]
    rw [cap_cast] at hf2'
    clear hlen hr4 hc3 hc2 hc1
    omega
  · rw [hs4, hs3']; rfl

theorem wraparound_order_witness :
    ∃ q1 q2 q3 q4,
      insertMany (mkQueue fun _ => 0) [20, 21, 22, 23, 24, 25, 26, 27, 28, 29] =
        some (List.replicate CAP true, q1) ∧
      removeMany q1 3 = some ([(true, 20), (true, 21), (true, 22)], q2) ∧
      insertMany q2 [30, 31, 32] = some (List.replicate 3 true, q3) ∧
      removeMany q3 CAP =
        some ([(true, 23), (true, 24), (true, 25), (true, 26), (true, 27), (true, 28),
          (true, 29), (true, 30), (true, 31), (true, 32)], q4) ∧
      q1.rear = 0 ∧ q3.rear = 3 ∧ q4.size = 0 :=
  wraparound_order (fun _ => 0) 3 [20, 21, 22, 23, 24, 25, 26, 27, 28, 29] [30, 31, 32]
    (by decide) rfl rfl

/-! ## Invariants of the reachable states -/

/-- C5: capacity invariant.  Every finite sequence of `insertQ` and `removeQ`
calls, started on the initial state, runs to a state; that state and the state
after each of its prefixes satisfy `0 <= size <= CAP`. -/
theorem capacity_invariant (d : Fin CAP → Int) (cs : List Call) (n : Nat) :
    ∃ q, run (mkQueue d) (cs.take n) = some q ∧ 0 ≤ q.size ∧ q.size ≤ (CAP : Int) := by
  obtain ⟨q, hrun, hq⟩ := run_inv (cs.take n) (mkQueue d) (inv_mkQueue d)
  exact ⟨q, hrun, hq.2.2.1, hq.2.2.2.1⟩

/-- C6: index invariant.  Every sequence of calls from the initial state runs
to a state with `rear == (front + size) mod CAP`; there `isFull()` implies
`rear == front`, `isEmpty()` implies `rear == front`, and a full queue holds
`CAP` live elements, one per slot. -/
theorem index_invariant (d : Fin CAP → Int) (cs : List Call) :
    ∃ q, run (mkQueue d) cs = some q ∧
      q.rear = (q.front + q.size) % (CAP : Int) ∧
      (q.isFull = true → q.rear = q.front) ∧
      (q.isEmpty = true → q.rear = q.front) ∧
      (q.isFull = true → ∃ xs, snapshot q = some xs ∧ xs.length = CAP) := by
  obtain ⟨q, hrun, hq⟩ := run_inv cs (mkQueue d) (inv_mkQueue d)
  have hsnap := snapshot_eq q hq
  obtain ⟨hf0, hf, _, _, hr⟩ := hq
  rw [cap_cast] at hf
  refine ⟨q, hrun, hr, ?_, ?_, ?_⟩
  · intro hfull
    have hs : q.size = 10 := by simpa [isFull] using hfull
    rw [hr, hs, cap_cast]; omega
  · intro hemp
    have hs : q.size = 0 := by simpa [isEmpty] using hemp
    rw [hr, hs, cap_cast]; omega
  · intro hfull
    have hs : q.size = 10 := by simpa [isFull] using hfull
    refine ⟨contents q, hsnap, ?_⟩
    rw [length_contents, hs]; rfl

/-- C10: index safety and totality.  Every sequence of calls from the initial
state runs to a state with `0 <= front < CAP` and `0 <= rear < CAP`; there the
accesses `data[rear]` and `data[front]` are inside the array, `insertQ` and
`removeQ` return for every argument, and the walk of `printQueue` reads `size`
elements without leaving the array. -/
theorem index_safety (d : Fin CAP → Int) (cs : List Call) :
    ∃ q, run (mkQueue d) cs = some q ∧
      (0 ≤ q.front ∧ q.front < (CAP : Int)) ∧ (0 ≤ q.rear ∧ q.rear < (CAP : Int)) ∧
      (∀ v, ∃ w, writeAt q.data q.rear v = some w) ∧
      (∃ x, readAt q.data q.front = some x) ∧
      (∀ v, ∃ b q1, insertQ q v = some (b, q1)) ∧
      (∀ removed, ∃ b x q1, removeQ q removed = some (b, x, q1)) ∧
      (∃ xs, snapshot q = some xs ∧ xs.length = q.size.toNat) := by
  obtain ⟨q, hrun, hq⟩ := run_inv cs (mkQueue d) (inv_mkQueue d)
  obtain ⟨hr0, hr⟩ := inv_rear q hq
  refine ⟨q, hrun, ⟨hq.1, hq.2.1⟩, ⟨hr0, hr⟩, ?_, ?_, ?_, ?_, ?_⟩
  · intro v
    exact ⟨_, writeAt_eq q.data q.rear v hr0 hr⟩
  · exact ⟨_, readAt_eq q.data q.front hq.1 hq.2.1⟩
  · intro v
    by_cases hs : q.size < (CAP : Int)
    · exact ⟨true, _, insertQ_eq q v hs hr0 hr⟩
    · exact ⟨false, q, insertQ_full_eq q v (le_antisymm hq.2.2.2.1 (not_lt.mp hs))⟩
  · intro removed
    by_cases hs : 0 < q.size
    · exact ⟨true, _, _, removeQ_eq q removed hs hq.1 hq.2.1⟩
    · exact ⟨false, removed, q,
        removeQ_empty_eq q removed (le_antisymm (not_lt.mp hs) hq.2.2.1)⟩
  · exact ⟨contents q, snapshot_eq q hq, length_contents q⟩

/-! ## The scenario of the specification -/

/-- C9: the scenario with `CAP = 10`, from the initial state with any storage
contents.  `insertQ(0)` .. `insertQ(9)` all return `true`; `insertQ(10)`
returns `false`, changes nothing, and the elements are still `0..9`; `removeQ`
returns `true` with `removed == 0` (whatever `removed` held) and the elements
are `1..9`; `rear` stands at `0`; `insertQ(10)` now returns `true`, stores `10`
in slot `0`, moves `rear` to `1`, and the elements are `1..10`. -/
theorem scenario_cap10 (d : Fin CAP → Int) :
    ∃ q10 q11 q12,
      insertMany (mkQueue d) [0, 1, 2, 3, 4, 5, 6, 7, 8, 9] =
        some ([true, true, true, true, true, true, true, true, true, true], q10) ∧
      insertQ q10 10 = some (false, q10) ∧
      snapshot q10 = some [0, 1, 2, 3, 4, 5, 6, 7, 8, 9] ∧
      (∀ removed, removeQ q10 removed = some (true, 0, q11)) ∧
      snapshot q11 = some [1, 2, 3, 4, 5, 6, 7, 8, 9] ∧
      q11.rear = 0 ∧
      insertQ q11 10 = some (true, q12) ∧
      q12.data ⟨0, by decide⟩ = 10 ∧ q12.rear = 1 ∧
      snapshot q12 = some [1, 2, 3, 4, 5, 6, 7, 8, 9, 10] := by
  obtain ⟨q10, hins, h10, hs10, hf10, hc10⟩ :=
    insertMany_inv [0, 1, 2, 3, 4, 5, 6, 7, 8, 9] (mkQueue d) (inv_mkQueue d)
      (by simp [mkQueue])
  rw [contents_mkQueue, List.nil_append] at hc10
  have hs10' : q10.size = 10 := hs10
  have hf10' : q10.front = 0 := hf10
  have hr10 : q10.rear = 0 := by rw [h10.2.2.2.2, hf10', hs10']; rfl
  obtain ⟨x, q11, hrem, h11, hs11, hr11, hd11, hc11⟩ :=
    removeQ_inv q10 0 h10 (by rw [hs10']; decide)
  rw [hc10] at hc11
  have hx : x = 0 := ((List.cons.injEq _ _ _ _).mp hc11).1.symm
  have hc11' : contents q11 = [1, 2, 3, 4, 5, 6, 7, 8, 9] :=
    ((List.cons.injEq _ _ _ _).mp hc11).2.symm
  have hrem' : ∀ removed, removeQ q10 removed = some (true, 0, q11) := by
    intro removed
    have h1 := removeQ_eq q10 removed (by rw [hs10']; decide) h10.1 h10.2.1
    have h0 := removeQ_eq q10 0 (by rw [hs10']; decide) h10.1 h10.2.1
    rw [hrem] at h0
    rw [h1, ← h0, hx]
  have hs11' : q11.size = 9 := by rw [hs11, hs10']; rfl
  have hr11' : q11.rear = 0 := by rw [hr11, hr10]
  obtain ⟨q12, hins12, h12, hs12, hf12, hc12⟩ :=
    insertQ_inv q11 10 h11 (by rw [hs11']; decide)
  have heq := insertQ_eq q11 10 (by rw [hs11']; decide) (by rw [hr11']) (by rw [hr11']; decide)
  rw [hins12] at heq
  have hq12 := (Prod.mk.injEq _ _ _ _).mp (Option.some.inj heq)
  refine ⟨q10, q11, q12, hins, insertQ_full_eq q10 10 hs10', ?_, hrem', ?_, hr11', hins12,
    ?_, ?_, ?_⟩
  · rw [snapshot_eq q10 h10, hc10]
  · rw [snapshot_eq q11 h11, hc11']
  · rw [hq12.2, hr11']
    exact Function.update_same (slot 0) (10 : Int) q11.data
  · rw [hq12.2, hr11']; rfl
  · rw [snapshot_eq q12 h12, hc12, hc11']; rfl

end CircularQueue

/-! # The stack -/

namespace Stack

open CircularQueue (incr decr readAt writeAt slot incr_eq readAt_eq writeAt_eq slot_eq_iff
  cap_cast)

theorem decr_eq_of_nonneg (i : Int) (h : 0 ≤ i) : decr i = some (i - 1) := by
  unfold decr CircularQueue.INT_MIN
  rw [if_pos (by omega)]

theorem stack_scan_eq (a : Fin CAPACITY → Int) (n : Nat) :
    ∀ i : Int, 0 ≤ i → i + (n : Int) ≤ 10 →
      scan a i n = some ((List.range n).map fun (k : Nat) => a (slot (i + (k : Int)))) := by
  induction n with
  | zero => intro i _ _; rfl
  | succ n ih =>
    intro i h0 h
    have hi : i < ((CircularQueue.CAP : Nat) : Int) := by rw [cap_cast]; omega
    unfold scan
    rw [readAt_eq a i h0 hi, incr_eq i hi]
    simp only [Option.some_bind]
    rw [ih (i + 1) (by omega) (by omega)]
    simp only [Option.some_bind]
    rw [List.range_succ_eq_map, List.map_cons, List.map_map]
    congr 2
    · simp
    · apply List.map_congr_left
      intro k _
      simp only [Function.comp_apply]
      congr 2
      push_cast
      omega

theorem printStack_eq (s : Stack) (h : Inv s) : printStack s = some (items s) := by
  obtain ⟨h0, h1⟩ := h
  unfold printStack
  rw [stack_scan_eq s.stack _ 0 (le_refl 0) (by omega)]
  simp only [items, zero_add]

theorem length_items (s : Stack) : (items s).length = (s.top + 1).toNat := by
  simp [items]

theorem items_mkStack (d : Fin CAPACITY → Int) : items (mkStack d) = [] := by
  simp [items, mkStack]

theorem inv_mkStack (d : Fin CAPACITY → Int) : Inv (mkStack d) := by
  simp only [Inv, mkStack]; omega

theorem push_full_eq (s : Stack) (v : Int) (h : s.top = 9) : push s v = some (none, s) := by
  have hf : s.isFull = true := by simp [isFull, h]
  unfold push
  rw [if_pos hf]

theorem pop_empty_eq (s : Stack) (h : s.top = -1) : pop s = some (none, s) := by
  have he : s.isEmpty = true := by simp [isEmpty, h]
  unfold pop
  rw [if_pos he]

theorem push_inv (s : Stack) (v : Int) (h : Inv s) (ht : s.top < 9)
    (hv : v + 1 ≤ CircularQueue.INT_MAX) :
    ∃ s1, push s v = some (some (v + 1, items s ++ [v]), s1) ∧ Inv s1 ∧
      s1.top = s.top + 1 ∧ items s1 = items s ++ [v] := by
  obtain ⟨h0, h1⟩ := h
  have hshown : incr v = some (v + 1) := by
    unfold incr
    rw [if_pos hv]
  have hf : s.isFull = false := by
    simp only [isFull, beq_eq_false_iff_ne, ne_eq, Nat.cast_ofNat]; omega
  have hi : s.top < ((CircularQueue.CAP : Nat) : Int) := by rw [cap_cast]; omega
  have hi1 : s.top + 1 < ((CircularQueue.CAP : Nat) : Int) := by rw [cap_cast]; omega
  have hinv : Inv { stack := Function.update s.stack (slot (s.top + 1)) v, top := s.top + 1 } := by
    simp only [Inv]; omega
  have hitems : items { stack := Function.update s.stack (slot (s.top + 1)) v, top := s.top + 1 }
      = items s ++ [v] := by
    have hn : (s.top + 1 + 1).toNat = (s.top + 1).toNat + 1 := by omega
    simp only [items, hn, List.range_succ, List.map_append, List.map_cons, List.map_nil]
    congr 1
    · apply List.map_congr_left
      intro k hk
      rw [List.mem_range] at hk
      apply Function.update_noteq
      rw [Ne, slot_eq_iff]
      omega
    · have he : slot (((s.top + 1).toNat : Nat) : Int) = slot (s.top + 1) := by
        rw [slot_eq_iff]; omega
      rw [he, Function.update_same]
  refine ⟨_, ?_, hinv, rfl, hitems⟩
  unfold push
  rw [hf, incr_eq s.top hi]
  simp only [Bool.false_eq_true, if_false, Option.some_bind]
  rw [writeAt_eq s.stack (s.top + 1) v (by omega) hi1, hshown]
  simp only [Option.some_bind]
  rw [printStack_eq _ hinv, hitems]
  rfl

theorem push_overflow (s : Stack) (v : Int) (h : Inv s) (ht : s.top < 9)
    (hv : ¬ v + 1 ≤ CircularQueue.INT_MAX) : push s v = none := by
  obtain ⟨h0, h1⟩ := h
  have hshown : incr v = none := by
    unfold incr
    rw [if_neg hv]
  have hf : s.isFull = false := by
    simp only [isFull, beq_eq_false_iff_ne, ne_eq, Nat.cast_ofNat]; omega
  have hi : s.top < ((CircularQueue.CAP : Nat) : Int) := by rw [cap_cast]; omega
  have hi1 : s.top + 1 < ((CircularQueue.CAP : Nat) : Int) := by rw [cap_cast]; omega
  unfold push
  rw [hf, incr_eq s.top hi]
  simp only [Bool.false_eq_true, if_false, Option.some_bind]
  rw [writeAt_eq s.stack (s.top + 1) v (by omega) hi1, hshown]
  rfl

theorem pop_inv (s : Stack) (h : Inv s) (ht : 0 ≤ s.top) :
    ∃ x s1, pop s = some (some (x, items s1), s1) ∧ Inv s1 ∧ s1.top = s.top - 1 ∧
      s1.stack = s.stack ∧ x = s.stack (slot s.top) ∧
      (items s).reverse = x :: (items s1).reverse := by
  obtain ⟨h0, h1⟩ := h
  have he : s.isEmpty = false := by
    simp only [isEmpty, beq_eq_false_iff_ne, ne_eq]; omega
  have hi : s.top < ((CircularQueue.CAP : Nat) : Int) := by rw [cap_cast]; omega
  have hinv : Inv { s with top := s.top - 1 } := by
    simp only [Inv]; omega
  refine ⟨s.stack (slot s.top), { s with top := s.top - 1 }, ?_, hinv, rfl, rfl, rfl, ?_⟩
  · unfold pop
    rw [he, readAt_eq s.stack s.top ht hi, decr_eq_of_nonneg s.top ht]
    simp only [Bool.false_eq_true, if_false, Option.some_bind]
    rw [printStack_eq _ hinv]
    rfl
  · have hn : (s.top + 1).toNat = (s.top - 1 + 1).toNat + 1 := by omega
    simp only [items]
    rw [hn, List.range_succ, List.map_append, List.reverse_append]
    simp only [List.map_cons, List.map_nil, List.reverse_cons, List.reverse_nil,
      List.nil_append, List.singleton_append, List.cons.injEq, and_true]
    congr 1
    rw [slot_eq_iff]; omega

theorem stack_step_total (s : Stack) (c : Op) (h : Inv s)
    (hc : ∀ v, c = Op.push v → v + 1 ≤ CircularQueue.INT_MAX) :
    ∃ s1, step s c = some s1 ∧ Inv s1 := by
  cases c with
  | push v =>
    by_cases ht : s.top < 9
    · obtain ⟨s1, he, hi, _⟩ := push_inv s v h ht (hc v rfl)
      exact ⟨s1, by simp only [step, he, Option.map_some'], hi⟩
    · have hc : s.top = 9 := le_antisymm h.2 (not_lt.mp ht)
      exact ⟨s, by simp only [step, push_full_eq s v hc, Option.map_some'], h⟩
  | pop =>
    by_cases ht : 0 ≤ s.top
    · obtain ⟨x, s1, he, hi, _⟩ := pop_inv s h ht
      exact ⟨s1, by simp only [step, he, Option.map_some'], hi⟩
    · have hc : s.top = -1 := by have := h.1; omega
      exact ⟨s, by simp only [step, pop_empty_eq s hc, Option.map_some'], h⟩

theorem stack_step_inv (s s1 : Stack) (c : Op) (h : Inv s) (hstep : step s c = some s1) :
    Inv s1 := by
  by_cases hc : ∀ v, c = Op.push v → v + 1 ≤ CircularQueue.INT_MAX
  · obtain ⟨s2, he, hi⟩ := stack_step_total s c h hc
    rw [he] at hstep
    cases hstep
    exact hi
  · push_neg at hc
    obtain ⟨v, hcv, hv⟩ := hc
    subst hcv
    by_cases ht : s.top < 9
    · simp only [step, push_overflow s v h ht (not_le.mpr hv), Option.map_none'] at hstep
      cases hstep
    · have h9 : s.top = 9 := le_antisymm h.2 (not_lt.mp ht)
      simp only [step, push_full_eq s v h9, Option.map_some', Option.some.injEq] at hstep
      rw [← hstep]
      exact h

theorem stack_run_total (cs : List Op) :
    ∀ s : Stack, Inv s → (∀ v, Op.push v ∈ cs → v + 1 ≤ CircularQueue.INT_MAX) →
      ∃ s1, run s cs = some s1 ∧ Inv s1 := by
  induction cs with
  | nil => intro s h _; exact ⟨s, rfl, h⟩
  | cons c cs ih =>
    intro s h hv
    obtain ⟨s1, hstep, h1⟩ :=
      stack_step_total s c h (fun v hc => hv v (by rw [hc]; exact List.mem_cons_self _ _))
    obtain ⟨s2, hrun, h2⟩ := ih s1 h1 (fun v hm => hv v (List.mem_cons_of_mem _ hm))
    exact ⟨s2, by simp only [run, hstep, Option.some_bind, hrun], h2⟩

theorem stack_run_inv (cs : List Op) :
    ∀ s s1 : Stack, Inv s → run s cs = some s1 → Inv s1 := by
  induction cs with
  | nil =>
    intro s s1 h hrun
    simp only [run, Option.some.injEq] at hrun
    rw [← hrun]
    exact h
  | cons c cs ih =>
    intro s s1 h hrun
    cases hstep : step s c with
    | none => simp only [run, hstep, Option.none_bind] at hrun; cases hrun
    | some s2 =>
      simp only [run, hstep, Option.some_bind] at hrun
      exact ih s2 s1 (stack_step_inv s s2 c h hstep) hrun

theorem pushMany_inv (vs : List Int) :
    ∀ s : Stack, Inv s → s.top + 1 + (vs.length : Int) ≤ 10 →
      (∀ v ∈ vs, v + 1 ≤ CircularQueue.INT_MAX) →
      ∃ s1, pushMany s vs = some (List.replicate vs.length true, s1) ∧ Inv s1 ∧
        s1.top = s.top + (vs.length : Int) ∧ items s1 = items s ++ vs := by
  induction vs with
  | nil => intro s h _ _; exact ⟨s, rfl, h, by simp, by simp⟩
  | cons v vs ih =>
    intro s h hlen hv
    simp only [List.length_cons, Nat.cast_add, Nat.cast_one] at hlen
    obtain ⟨s1, he, hi, htop, hit⟩ :=
      push_inv s v h (by omega) (hv v (List.mem_cons_self _ _))
    obtain ⟨s2, he2, hi2, htop2, hit2⟩ :=
      ih s1 hi (by omega) (fun w hw => hv w (List.mem_cons_of_mem _ hw))
    refine ⟨s2, ?_, hi2, ?_, ?_⟩
    · simp only [pushMany, he, Option.some_bind, he2, List.length_cons, List.replicate_succ,
        Option.isSome_some]
    · simp only [List.length_cons, Nat.cast_add, Nat.cast_one]; omega
    · rw [hit2, hit, List.append_assoc, List.singleton_append]

theorem popMany_inv (n : Nat) :
    ∀ s : Stack, Inv s → (n : Int) ≤ s.top + 1 →
      ∃ s1, popMany s n = some (((items s).reverse.take n).map some, s1) ∧ Inv s1 ∧
        s1.top = s.top - (n : Int) ∧ s1.stack = s.stack := by
  induction n with
  | zero => intro s h _; exact ⟨s, rfl, h, by simp, rfl⟩
  | succ n ih =>
    intro s h hlen
    simp only [Nat.cast_add, Nat.cast_one] at hlen
    obtain ⟨x, s1, he, hi, htop, hst, _, hit⟩ := pop_inv s h (by omega)
    obtain ⟨s2, he2, hi2, htop2, hst2⟩ := ih s1 hi (by omega)
    refine ⟨s2, ?_, hi2, ?_, by rw [hst2, hst]⟩
    · simp only [popMany, he, Option.some_bind, he2, hit, List.take_succ_cons, List.map_cons,
        Option.map_some']
    · simp only [Nat.cast_add, Nat.cast_one]; omega

/-- C11, as stated, fails: a single `push(2147483647)` on the empty stack.  The
call evaluates `value+1` for its serial line, which is not an `int`, so the
call has no defined result and nothing can be said to be stored. -/
theorem stack_lifo_counterexample :
    ([2147483647] : List Int).length ≤ CAPACITY ∧
      push (mkStack fun _ => 0) 2147483647 = none ∧
      pushMany (mkStack fun _ => 0) [2147483647] = none :=
  ⟨by decide, rfl, rfl⟩

/-- C11, amended: the stack is LIFO for values below `INT_MAX`.  From the
empty stack (`top == -1`, any array contents), for `n <= CAPACITY` values
`v1..vn` with `vi + 1` an `int`: the `n` calls `push(vi)` all store their
value, leave `vi` at index `i-1` and `top == n-1`; the following `n` calls of
`pop` read `vn, ..., v1` in that order and leave `top == -1`. -/
theorem stack_lifo (d : Fin CAPACITY → Int) (vs : List Int) (hn : vs.length ≤ CAPACITY)
    (hv : ∀ v ∈ vs, v + 1 ≤ CircularQueue.INT_MAX) :
    ∃ s1 s2, pushMany (mkStack d) vs = some (List.replicate vs.length true, s1) ∧
      s1.top = (vs.length : Int) - 1 ∧
      (∀ (i : Fin CAPACITY) (h : i.val < vs.length), s1.stack i = vs.get ⟨i.val, h⟩) ∧
      popMany s1 vs.length = some (vs.reverse.map some, s2) ∧
      s2.top = -1 := by
  have hn' : vs.length ≤ 10 := hn
  obtain ⟨s1, hpush, h1, ht1, hit1⟩ :=
    pushMany_inv vs (mkStack d) (inv_mkStack d) (by simp only [mkStack]; omega) hv
  rw [items_mkStack, List.nil_append] at hit1
  have ht1' : s1.top = (vs.length : Int) - 1 := by rw [ht1]; simp only [mkStack]; omega
  obtain ⟨s2, hpop, _, ht2, _⟩ := popMany_inv vs.length s1 h1 (by rw [ht1']; omega)
  refine ⟨s1, s2, hpush, ht1', ?_, ?_, by rw [ht2, ht1']; omega⟩
  · intro i h
    have hlen : i.val < (items s1).length := by rw [hit1]; exact h
    have hgen : ∀ (l : List Int) (_ : l = vs) (hl : i.val < l.length),
        l.get ⟨i.val, hl⟩ = vs.get ⟨i.val, h⟩ := by
      intro l hl _
      subst hl
      rfl
    rw [← hgen (items s1) hit1 hlen]
    simp only [items, List.get_eq_getElem, List.getElem_map, List.getElem_range]
    congr 1
    apply Fin.ext
    have hi := i.isLt
    simp only [slot, cap_cast]
    omega
  · rw [hpop, hit1]
    congr 2
    rw [List.take_of_length_le]
    rw [List.length_reverse]

theorem stack_lifo_witness :
    ([7, 2147483646, 9] : List Int).length ≤ CAPACITY ∧
    (∀ v ∈ ([7, 2147483646, 9] : List Int), v + 1 ≤ CircularQueue.INT_MAX) ∧
    ∃ s1 s2, pushMany (mkStack fun _ => 0) [7, 2147483646, 9]
        = some (List.replicate 3 true, s1) ∧
      s1.top = 3 - 1 ∧
      (∀ (i : Fin CAPACITY) (h : i.val < 3),
        s1.stack i = [7, 2147483646, 9].get ⟨i.val, h⟩) ∧
      popMany s1 3 = some ([some 9, some 2147483646, some 7], s2) ∧
      s2.top = -1 :=
  ⟨by decide, by decide,
    stack_lifo (fun _ => 0) [7, 2147483646, 9] (by decide) (by decide)⟩

/-- C12: overflow and underflow are rejected.  Every state reached from
`top == -1` by a sequence of `push` and `pop` calls has
`-1 <= top <= CAPACITY-1`; there `push(v)` with `top == CAPACITY-1` and `pop`
with `top == -1` leave `top` and the array unchanged for every `v`, and the
write `stack[top]` of an accepted `push` and the read `stack[top]` of an
accepted `pop` are inside the array.  Such states exist for every sequence
whose pushed values are below `INT_MAX`: the sequence then runs through, and
from each reached state `pop` returns, as does `push(v)` for `v` below
`INT_MAX`. -/
theorem stack_bounds (d : Fin CAPACITY → Int) (cs : List Op) :
    ((∀ v, Op.push v ∈ cs → v + 1 ≤ CircularQueue.INT_MAX) →
      ∃ s, run (mkStack d) cs = some s) ∧
    ∀ s, run (mkStack d) cs = some s →
      -1 ≤ s.top ∧ s.top ≤ (CAPACITY : Int) - 1 ∧
      (s.top = (CAPACITY : Int) - 1 → ∀ v, push s v = some (none, s)) ∧
      (s.top = -1 → pop s = some (none, s)) ∧
      (s.isFull = false → ∀ v, ∃ a, writeAt s.stack (s.top + 1) v = some a) ∧
      (s.isEmpty = false → ∃ x, readAt s.stack s.top = some x) ∧
      (∀ v, v + 1 ≤ CircularQueue.INT_MAX → ∃ r s1, push s v = some (r, s1)) ∧
      (∃ r s1, pop s = some (r, s1)) := by
  refine ⟨?_, ?_⟩
  · intro hv
    obtain ⟨s, hrun, _⟩ := stack_run_total cs (mkStack d) (inv_mkStack d) hv
    exact ⟨s, hrun⟩
  intro s hrun
  obtain ⟨h0, h1⟩ := stack_run_inv cs (mkStack d) s (inv_mkStack d) hrun
  refine ⟨h0, by rw [cap_cast]; omega, ?_, ?_, ?_, ?_, ?_, ?_⟩
  · intro ht v
    exact push_full_eq s v (by rw [cap_cast] at ht; omega)
  · intro ht
    exact pop_empty_eq s ht
  · intro hf v
    have hne : s.top ≠ 9 := by
      intro hc
      simp [isFull, hc] at hf
    exact ⟨_, writeAt_eq s.stack (s.top + 1) v (by omega) (by rw [cap_cast]; omega)⟩
  · intro he
    have hne : s.top ≠ -1 := by
      intro hc
      simp [isEmpty, hc] at he
    exact ⟨_, readAt_eq s.stack s.top (by omega) (by rw [cap_cast]; omega)⟩
  · intro v hv
    by_cases ht : s.top < 9
    · obtain ⟨s1, he, _⟩ := push_inv s v ⟨h0, h1⟩ ht hv
      exact ⟨_, s1, he⟩
    · exact ⟨none, s, push_full_eq s v (by omega)⟩
  · by_cases ht : 0 ≤ s.top
    · obtain ⟨x, s1, he, _⟩ := pop_inv s ⟨h0, h1⟩ ht
      exact ⟨_, s1, he⟩
    · exact ⟨none, s, pop_empty_eq s (by omega)⟩

theorem stack_bounds_witness :
    ∃ s, run (mkStack fun _ => 0)
        [Op.push 3, Op.push 2147483646, Op.pop, Op.pop, Op.pop, Op.push 5] = some s ∧
      -1 ≤ s.top ∧ s.top ≤ (CAPACITY : Int) - 1 ∧ s.top = 0 :=
  ⟨_, rfl,
    ((stack_bounds (fun _ => 0)
      [Op.push 3, Op.push 2147483646, Op.pop, Op.pop, Op.pop, Op.push 5]).2 _ rfl).1,
    ((stack_bounds (fun _ => 0)
      [Op.push 3, Op.push 2147483646, Op.pop, Op.pop, Op.pop, Op.push 5]).2 _ rfl).2.1,
    rfl⟩

end Stack

/-! # The circular queue: queries and refinement -/

namespace CircularQueue

theorem ledWalk_eq (n : Nat) :
    ∀ pos : Int, 0 ≤ pos → pos < (CAP : Int) →
      ledWalk pos n = some ((List.range n).map fun (k : Nat) => (pos + (k : Int)) % 10) := by
  induction n with
  | zero => intro pos _ _; rfl
  | succ n ih =>
    intro pos h0 h
    have h1 : 0 ≤ (pos + 1) % (CAP : Int) ∧ (pos + 1) % (CAP : Int) < (CAP : Int) := by
      simp only [cap_cast]; omega
    unfold ledWalk
    rw [nextIndex_eq pos h0 h]
    simp only [Option.some_bind]
    rw [ih _ h1.1 h1.2]
    simp only [Option.some_bind, cap_cast] at h ⊢
    rw [List.range_succ_eq_map, List.map_cons, List.map_map]
    congr 2
    · simp only [Nat.cast_zero, add_zero]; omega
    · apply List.map_congr_left
      intro k _
      simp only [Function.comp_apply]
      push_cast
      omega

theorem askMany_eq (q : CircularQueue) (f : Query → Answer)
    (hf : ∀ x, ask q x = some (f x, q)) (xs : List Query) :
    askMany q xs = some (xs.map f, q) := by
  induction xs with
  | nil => rfl
  | cons x xs ih =>
    simp only [askMany, hf x, Option.some_bind, ih, List.map_cons]

theorem stepObs_ref (q : CircularQueue) (c : Call) (h : Inv q) :
    ∃ q1, stepObs q c = some ((refStep (contents q) c).1, q1) ∧ Inv q1 ∧
      contents q1 = (refStep (contents q) c).2 := by
  have hlen := length_contents q
  cases c with
  | insert v =>
    by_cases hs : q.size < (CAP : Int)
    · obtain ⟨q1, he, hi, _, _, hc⟩ := insertQ_inv q v h hs
      have hlt : (contents q).length < CAP := by
        rw [hlen]; rw [cap_cast] at hs; show q.size.toNat < 10; omega
      refine ⟨q1, ?_, hi, ?_⟩
      · simp only [stepObs, he, Option.some_bind, snapshot_eq q1 hi, refStep, if_pos hlt, hc]
      · simp only [refStep, if_pos hlt, hc]
    · have hfull : q.size = (CAP : Int) := le_antisymm h.2.2.2.1 (not_lt.mp hs)
      have hnlt : ¬ (contents q).length < CAP := by
        rw [hlen, hfull]; simp
      refine ⟨q, ?_, h, ?_⟩
      · simp only [stepObs, insertQ_full_eq q v hfull, Option.some_bind, snapshot_eq q h,
          refStep, if_neg hnlt]
      · simp only [refStep, if_neg hnlt]
  | remove =>
    by_cases hs : 0 < q.size
    · obtain ⟨x, q1, he, hi, _, _, _, hc⟩ := removeQ_inv q 0 h hs
      refine ⟨q1, ?_, hi, ?_⟩
      · simp only [stepObs, he, Option.some_bind, snapshot_eq q1 hi, hc, refStep, if_true]
      · simp only [hc, refStep]
    · have hz : q.size = 0 := le_antisymm (not_lt.mp hs) h.2.2.1
      have hc : contents q = [] := by simp [contents, hz]
      refine ⟨q, ?_, h, ?_⟩
      · simp only [stepObs, removeQ_empty_eq q 0 hz, Option.some_bind, snapshot_eq q h, hc,
          refStep, Bool.false_eq_true, if_false]
      · simp only [hc, refStep]

theorem trace_ref (cs : List Call) :
    ∀ q : CircularQueue, Inv q → trace q cs = some (refTrace (contents q) cs) := by
  induction cs with
  | nil => intro q _; rfl
  | cons c cs ih =>
    intro q h
    obtain ⟨q1, he, hi, hc⟩ := stepObs_ref q c h
    simp only [trace, he, Option.some_bind, ih q1 hi, hc, refTrace]

/-- C13: the queries are pure and repeatable.  `isEmpty()` is exactly
`size == 0` and `isFull()` is exactly `size == CAP`.  In every state `q`
reached from the initial state, each of `isEmpty`, `isFull`, the walk of
`printQueue` and the walk of `showQueueLEDs` returns and leaves `data`,
`front`, `rear` and `size` as they were; in any sequence of such queries with
no `insertQ` or `removeQ` in between, the result of a query depends only on
which query it is, not on its position or on how often it was asked before. -/
theorem queries_pure (d : Fin CAP → Int) (cs : List Call) :
    (∀ q : CircularQueue, (q.isEmpty = true ↔ q.size = 0) ∧
      (q.isFull = true ↔ q.size = (CAP : Int))) ∧
    ∃ q, run (mkQueue d) cs = some q ∧
      ∃ f : Query → Answer,
        f Query.isEmpty = Answer.flag (decide (q.size = 0)) ∧
        f Query.isFull = Answer.flag (decide (q.size = (CAP : Int))) ∧
        (∃ xs, snapshot q = some xs ∧ f Query.printQueue = Answer.numbers xs) ∧
        (∃ ps, showQueueLEDs q = some ps ∧ f Query.showQueueLEDs = Answer.numbers ps) ∧
        (∀ x, ask q x = some (f x, q)) ∧
        ∀ xs : List Query, askMany q xs = some (xs.map f, q) := by
  refine ⟨fun q => ⟨by simp [isEmpty], by simp [isFull]⟩, ?_⟩
  obtain ⟨q, hrun, h⟩ := run_inv cs (mkQueue d) (inv_mkQueue d)
  have hled := ledWalk_eq q.size.toNat q.front h.1 h.2.1
  have hf : ∀ x, ask q x = some
      ((fun y => match y with
        | Query.isEmpty => Answer.flag q.isEmpty
        | Query.isFull => Answer.flag q.isFull
        | Query.printQueue => Answer.numbers (contents q)
        | Query.showQueueLEDs => Answer.numbers
            ((List.range q.size.toNat).map fun (k : Nat) => (q.front + (k : Int)) % 10)) x,
        q) := by
    intro x
    cases x with
    | isEmpty => rfl
    | isFull => rfl
    | printQueue => simp only [ask, snapshot_eq q h, Option.map_some']
    | showQueueLEDs => simp only [ask, showQueueLEDs, hled, Option.map_some']
  refine ⟨q, hrun, _, ?_, ?_, ⟨_, snapshot_eq q h, rfl⟩, ⟨_, hled, rfl⟩, hf,
    askMany_eq q _ hf⟩
  · exact congrArg Answer.flag (Bool.eq_iff_iff.mpr (by simp [isEmpty]))
  · exact congrArg Answer.flag (Bool.eq_iff_iff.mpr (by simp [isFull]))

/-- C14: the circular queue refines the bounded list queue.  For every finite
sequence of `insertQ(v)` and `removeQ` calls from the initial state, the run
of the code returns, and call by call it shows what the reference model shows
(a list, insert appends iff its length is below `CAP`, remove pops the head
iff it is non-empty): the same flag, the same value for every successful
remove, and after every call the elements walked from `front` equal the list. -/
theorem circular_refines_list (d : Fin CAP → Int) (cs : List Call) :
    trace (mkQueue d) cs = some (refTrace [] cs) := by
  have h := trace_ref cs (mkQueue d) (inv_mkQueue d)
  rw [contents_mkQueue] at h
  exact h

end CircularQueue

/-! # The simple queue -/

namespace SimpleQueue

open CircularQueue (incr decr readAt writeAt slot incr_eq readAt_eq writeAt_eq slot_eq_iff
  cap_cast Call)

theorem simple_scan_eq (a : Fin CAPACITY → Int) (n : Nat) :
    ∀ i : Int, 0 ≤ i → i + (n : Int) ≤ 10 →
      scan a i n = some ((List.range n).map fun (k : Nat) => a (slot (i + (k : Int)))) := by
  induction n with
  | zero => intro i _ _; rfl
  | succ n ih =>
    intro i h0 h
    have hi : i < ((CircularQueue.CAP : Nat) : Int) := by rw [cap_cast]; omega
    unfold scan
    rw [readAt_eq a i h0 hi, incr_eq i hi]
    simp only [Option.some_bind]
    rw [ih (i + 1) (by omega) (by omega)]
    simp only [Option.some_bind]
    rw [List.range_succ_eq_map, List.map_cons, List.map_map]
    congr 2
    · simp
    · apply List.map_congr_left
      intro k _
      simp only [Function.comp_apply]
      congr 2
      push_cast
      omega

theorem length_live (s : SimpleQueue) :
    (live s).length = (s.rearIdx - s.frontIdx + 1).toNat := by
  simp [live]

theorem live_mkSimple (d : Fin CAPACITY → Int) : live (mkSimple d) = [] := by
  simp [live, mkSimple]

theorem inv_mkSimple (d : Fin CAPACITY → Int) : Inv (mkSimple d) := by
  simp only [Inv, mkSimple]; omega

theorem loopInv_mkSimple (d : Fin CAPACITY → Int) : LoopInv (mkSimple d) :=
  ⟨inv_mkSimple d, fun _ => ⟨rfl, rfl⟩⟩

theorem isEmpty_iff (s : SimpleQueue) : s.isEmpty = true ↔ s.rearIdx < s.frontIdx := by
  simp [isEmpty]

theorem isFull_iff (s : SimpleQueue) : s.isFull = true ↔ s.rearIdx = 9 := by
  simp only [isFull, beq_iff_eq, Nat.cast_ofNat]
  omega

theorem printQueue_eq (s : SimpleQueue) (h : Inv s) : printQueue s = some (live s) := by
  obtain ⟨h0, h1, h2⟩ := h
  unfold printQueue
  split
  · rename_i he
    rw [isEmpty_iff] at he
    have hz : (s.rearIdx - s.frontIdx + 1).toNat = 0 := by omega
    simp [live, hz]
  · rw [simple_scan_eq s.queueArr _ s.frontIdx h0 (by omega)]
    rfl

theorem simple_insertQ_full_eq (s : SimpleQueue) (v : Int) (h : s.rearIdx = 9) :
    insertQ s v = some (none, s) := by
  have hf : s.isFull = true := (isFull_iff s).mpr h
  unfold insertQ
  rw [if_pos hf]

theorem simple_removeQ_empty_eq (s : SimpleQueue) (h : s.rearIdx < s.frontIdx) :
    removeQ s = some (none, s) := by
  have he : s.isEmpty = true := (isEmpty_iff s).mpr h
  unfold removeQ
  rw [if_pos he]

theorem simple_insertQ_inv (s : SimpleQueue) (v : Int) (h : Inv s) (ht : s.rearIdx < 9) :
    ∃ s1, insertQ s v = some (some (live s ++ [v]), s1) ∧ Inv s1 ∧
      s1.frontIdx = s.frontIdx ∧ s1.rearIdx = s.rearIdx + 1 ∧
      s1.nextValue = s.nextValue ∧ live s1 = live s ++ [v] := by
  obtain ⟨h0, h1, h2⟩ := h
  have hf : s.isFull = false := by
    rw [← Bool.not_eq_true, isFull_iff]; omega
  have hi : s.rearIdx < ((CircularQueue.CAP : Nat) : Int) := by rw [cap_cast]; omega
  have hi1 : s.rearIdx + 1 < ((CircularQueue.CAP : Nat) : Int) := by rw [cap_cast]; omega
  have hinv : Inv { s with queueArr := Function.update s.queueArr (slot (s.rearIdx + 1)) v,
                           rearIdx := s.rearIdx + 1 } := by
    simp only [Inv]; omega
  have hlive : live { s with queueArr := Function.update s.queueArr (slot (s.rearIdx + 1)) v,
                             rearIdx := s.rearIdx + 1 } = live s ++ [v] := by
    have hn : (s.rearIdx + 1 - s.frontIdx + 1).toNat = (s.rearIdx - s.frontIdx + 1).toNat + 1 := by
      omega
    simp only [live, hn, List.range_succ, List.map_append, List.map_cons, List.map_nil]
    congr 1
    · apply List.map_congr_left
      intro k hk
      rw [List.mem_range] at hk
      apply Function.update_noteq
      rw [Ne, slot_eq_iff]
      omega
    · have he : slot (s.frontIdx + (((s.rearIdx - s.frontIdx + 1).toNat : Nat) : Int))
          = slot (s.rearIdx + 1) := by
        rw [slot_eq_iff]; omega
      rw [he, Function.update_same]
  refine ⟨_, ?_, hinv, rfl, rfl, rfl, hlive⟩
  unfold insertQ
  rw [hf, incr_eq s.rearIdx hi]
  simp only [Bool.false_eq_true, if_false, Option.some_bind]
  rw [writeAt_eq s.queueArr (s.rearIdx + 1) v (by omega) hi1]
  simp only [Option.some_bind]
  rw [printQueue_eq _ hinv, hlive]
  rfl

theorem simple_removeQ_inv (s : SimpleQueue) (h : Inv s) (ht : s.frontIdx ≤ s.rearIdx) :
    ∃ x s1, removeQ s = some (some (x, live s1), s1) ∧ Inv s1 ∧
      s1.frontIdx = s.frontIdx + 1 ∧ s1.rearIdx = s.rearIdx ∧ s1.queueArr = s.queueArr ∧
      s1.nextValue = s.nextValue ∧ x = s.queueArr (slot s.frontIdx) ∧
      live s = x :: live s1 := by
  obtain ⟨h0, h1, h2⟩ := h
  have he : s.isEmpty = false := by
    rw [← Bool.not_eq_true, isEmpty_iff]; omega
  have hi : s.frontIdx < ((CircularQueue.CAP : Nat) : Int) := by rw [cap_cast]; omega
  have hinv : Inv { s with frontIdx := s.frontIdx + 1 } := by
    simp only [Inv]; omega
  refine ⟨s.queueArr (slot s.frontIdx), { s with frontIdx := s.frontIdx + 1 }, ?_, hinv,
    rfl, rfl, rfl, rfl, rfl, ?_⟩
  · unfold removeQ
    rw [he, readAt_eq s.queueArr s.frontIdx h0 hi, incr_eq s.frontIdx hi]
    simp only [Bool.false_eq_true, if_false, Option.some_bind]
    rw [printQueue_eq _ hinv]
    rfl
  · have hn : (s.rearIdx - s.frontIdx + 1).toNat
        = (s.rearIdx - (s.frontIdx + 1) + 1).toNat + 1 := by omega
    simp only [live]
    rw [hn, List.range_succ_eq_map, List.map_cons, List.map_map]
    congr 1
    · simp
    · apply List.map_congr_left
      intro k _
      simp only [Function.comp_apply]
      congr 2
      push_cast
      omega

theorem inv_resetIfEmpty (s : SimpleQueue) (h : Inv s) : Inv (resetIfEmpty s) := by
  unfold resetIfEmpty
  split
  · simp only [Inv]; omega
  · exact h

theorem loopInv_resetIfEmpty (s : SimpleQueue) (h : Inv s) : LoopInv (resetIfEmpty s) := by
  refine ⟨inv_resetIfEmpty s h, ?_⟩
  unfold resetIfEmpty
  split
  · intro _; exact ⟨rfl, rfl⟩
  · rename_i he
    rw [isEmpty_iff] at he
    intro hlt
    exact absurd hlt he

theorem live_resetIfEmpty (s : SimpleQueue) : live (resetIfEmpty s) = live s := by
  unfold resetIfEmpty
  split
  · rename_i he
    rw [isEmpty_iff] at he
    have hz : (s.rearIdx - s.frontIdx + 1).toNat = 0 := by omega
    simp [live, hz]
  · rfl

theorem resetIfEmpty_of_nonempty (s : SimpleQueue) (h : s.frontIdx ≤ s.rearIdx) :
    resetIfEmpty s = s := by
  have he : s.isEmpty = false := by
    rw [← Bool.not_eq_true, isEmpty_iff]; omega
  unfold resetIfEmpty
  rw [he]
  rfl

theorem nextValue_resetIfEmpty (s : SimpleQueue) :
    (resetIfEmpty s).nextValue = s.nextValue := by
  unfold resetIfEmpty
  split <;> rfl

theorem apply_inv (s : SimpleQueue) (c : Op) (h : Inv s) :
    ∃ s1, apply s c = some s1 ∧ Inv s1 := by
  cases c with
  | insertQ v =>
    by_cases ht : s.rearIdx < 9
    · obtain ⟨s1, he, hi, _⟩ := simple_insertQ_inv s v h ht
      exact ⟨s1, by simp only [apply, he, Option.map_some'], hi⟩
    · have hc : s.rearIdx = 9 := by have := h.2.2; omega
      exact ⟨s, by simp only [apply, simple_insertQ_full_eq s v hc, Option.map_some'], h⟩
  | removeQ =>
    by_cases ht : s.frontIdx ≤ s.rearIdx
    · obtain ⟨x, s1, he, hi, _⟩ := simple_removeQ_inv s h ht
      exact ⟨s1, by simp only [apply, he, Option.map_some'], hi⟩
    · exact ⟨s, by simp only [apply, simple_removeQ_empty_eq s (not_le.mp ht),
        Option.map_some'], h⟩
  | resetIfEmpty => exact ⟨_, rfl, inv_resetIfEmpty s h⟩

theorem applyAll_inv (cs : List Op) :
    ∀ s : SimpleQueue, Inv s → ∃ s1, applyAll s cs = some s1 ∧ Inv s1 := by
  induction cs with
  | nil => intro s h; exact ⟨s, rfl, h⟩
  | cons c cs ih =>
    intro s h
    obtain ⟨s1, hstep, h1⟩ := apply_inv s c h
    obtain ⟨s2, hrun, h2⟩ := ih s1 h1
    exact ⟨s2, by simp only [applyAll, hstep, Option.some_bind, hrun], h2⟩

theorem loopStep_inv (s : SimpleQueue) (c : Call) (h : LoopInv s) :
    ∃ s1, loopStep s c = some s1 ∧ LoopInv s1 := by
  cases c with
  | insert v =>
    by_cases ht : s.rearIdx < 9
    · obtain ⟨s1, he, hi, hf, hr, _⟩ := simple_insertQ_inv s v h.1 ht
      refine ⟨s1, by simp only [loopStep, he, Option.map_some'], hi, ?_⟩
      intro hlt
      have := h.1.2.1
      omega
    · have hc : s.rearIdx = 9 := by have := h.1.2.2; omega
      exact ⟨s, by simp only [loopStep, simple_insertQ_full_eq s v hc, Option.map_some'], h⟩
  | remove =>
    by_cases ht : s.frontIdx ≤ s.rearIdx
    · obtain ⟨x, s1, he, hi, _⟩ := simple_removeQ_inv s h.1 ht
      exact ⟨_, by simp only [loopStep, he, Option.map_some'], loopInv_resetIfEmpty s1 hi⟩
    · exact ⟨_, by simp only [loopStep, simple_removeQ_empty_eq s (not_le.mp ht),
        Option.map_some'], loopInv_resetIfEmpty s h.1⟩

theorem loopRun_inv (cs : List Call) :
    ∀ s : SimpleQueue, LoopInv s → ∃ s1, loopRun s cs = some s1 ∧ LoopInv s1 := by
  induction cs with
  | nil => intro s h; exact ⟨s, rfl, h⟩
  | cons c cs ih =>
    intro s h
    obtain ⟨s1, hstep, h1⟩ := loopStep_inv s c h
    obtain ⟨s2, hrun, h2⟩ := ih s1 h1
    exact ⟨s2, by simp only [loopRun, hstep, Option.some_bind, hrun], h2⟩

theorem simple_insertMany_inv (vs : List Int) :
    ∀ s : SimpleQueue, Inv s → s.rearIdx + 1 + (vs.length : Int) ≤ 10 →
      ∃ s1, insertMany s vs = some (List.replicate vs.length true, s1) ∧ Inv s1 ∧
        s1.frontIdx = s.frontIdx ∧ s1.rearIdx = s.rearIdx + (vs.length : Int) ∧
        live s1 = live s ++ vs := by
  induction vs with
  | nil => intro s h _; exact ⟨s, rfl, h, rfl, by simp, by simp⟩
  | cons v vs ih =>
    intro s h hlen
    simp only [List.length_cons, Nat.cast_add, Nat.cast_one] at hlen
    obtain ⟨s1, he, hi, hf, hr, _, hl⟩ := simple_insertQ_inv s v h (by omega)
    obtain ⟨s2, he2, hi2, hf2, hr2, hl2⟩ := ih s1 hi (by omega)
    refine ⟨s2, ?_, hi2, by rw [hf2, hf], ?_, ?_⟩
    · simp only [insertMany, he, Option.some_bind, he2, List.length_cons, List.replicate_succ,
        Option.isSome_some]
    · simp only [List.length_cons, Nat.cast_add, Nat.cast_one]; omega
    · rw [hl2, hl, List.append_assoc, List.singleton_append]

theorem simple_removeMany_inv (n : Nat) :
    ∀ s : SimpleQueue, LoopInv s → (n : Int) ≤ s.rearIdx - s.frontIdx + 1 →
      ∃ s1, removeMany s n = some (((live s).take n).map some, s1) ∧ LoopInv s1 ∧
        live s1 = (live s).drop n ∧
        ((n : Int) < s.rearIdx - s.frontIdx + 1 →
          s1.frontIdx = s.frontIdx + (n : Int) ∧ s1.rearIdx = s.rearIdx ∧
            s1.queueArr = s.queueArr) := by
  induction n with
  | zero =>
    intro s h _
    exact ⟨s, rfl, h, by simp, fun _ => ⟨by simp, rfl, rfl⟩⟩
  | succ n ih =>
    intro s h hlen
    simp only [Nat.cast_add, Nat.cast_one] at hlen
    obtain ⟨x, s1, he, hi, hf, hr, ha, _, _, hl⟩ := simple_removeQ_inv s h.1 (by omega)
    obtain ⟨s2, he2, hi2, hl2, hpart⟩ :=
      ih (resetIfEmpty s1) (loopInv_resetIfEmpty s1 hi) (by
        have hinv := inv_resetIfEmpty s1 hi
        by_cases hne : s1.frontIdx ≤ s1.rearIdx
        · rw [resetIfEmpty_of_nonempty s1 hne]; omega
        · have hz : n = 0 := by omega
          have := hinv.2.1
          omega)
    rw [live_resetIfEmpty] at he2 hl2
    refine ⟨s2, ?_, hi2, ?_, ?_⟩
    · simp only [removeMany, he, Option.some_bind, he2, hl, List.take_succ_cons, List.map_cons,
        Option.map_some']
    · rw [hl2, hl, List.drop_succ_cons]
    · intro hlt
      simp only [Nat.cast_add, Nat.cast_one] at hlt
      have hne : s1.frontIdx ≤ s1.rearIdx := by omega
      rw [resetIfEmpty_of_nonempty s1 hne] at hpart
      obtain ⟨p1, p2, p3⟩ := hpart (by omega)
      refine ⟨?_, by rw [p2, hr], by rw [p3, ha]⟩
      simp only [Nat.cast_add, Nat.cast_one]
      omega

theorem loopInv_of_empty (s : SimpleQueue) (h : LoopInv s) (he : live s = []) :
    s.frontIdx = 0 ∧ s.rearIdx = -1 := by
  have hl := length_live s
  rw [he, List.length_nil] at hl
  exact h.2 (by omega)

/-- C15: the simple queue loses capacity after a partial drain.  Driven as in
`loop()`, after `CAPACITY` stored inserts and `k` removes with
`1 <= k < CAPACITY`: the queue holds the `CAPACITY - k` newest values,
`frontIdx == k`, `rearIdx == CAPACITY - 1`, `isFull()` is true and `insertQ`
is blocked leaving the whole state unchanged.  After the remaining
`CAPACITY - k` removes the indices are `0` and `-1` again and `insertQ` stores
its value. -/
theorem simple_partial_drain (d : Fin CAPACITY → Int) (vs : List Int) (k : Nat)
    (hv : vs.length = CAPACITY) (hk1 : 1 ≤ k) (hk : k < CAPACITY) :
    ∃ s1 s2 s3,
      insertMany (mkSimple d) vs = some (List.replicate CAPACITY true, s1) ∧
      removeMany s1 k = some ((vs.take k).map some, s2) ∧
      printQueue s2 = some (vs.drop k) ∧ (vs.drop k).length = CAPACITY - k ∧
      s2.isFull = true ∧ s2.frontIdx = (k : Int) ∧ s2.rearIdx = (CAPACITY : Int) - 1 ∧
      (∀ v, insertQ s2 v = some (none, s2)) ∧
      removeMany s2 (CAPACITY - k) = some ((vs.drop k).map some, s3) ∧
      s3.frontIdx = 0 ∧ s3.rearIdx = -1 ∧ s3.isFull = false ∧
      (∀ v, ∃ s4, insertQ s3 v = some (some [v], s4)) := by
  have hv' : vs.length = 10 := hv
  have hk' : k < 10 := hk
  obtain ⟨s1, hins, h1, hf1, hr1, hl1⟩ :=
    simple_insertMany_inv vs (mkSimple d) (inv_mkSimple d) (by simp only [mkSimple]; omega)
  rw [live_mkSimple, List.nil_append] at hl1
  have hf1' : s1.frontIdx = 0 := hf1
  have hr1' : s1.rearIdx = 9 := by rw [hr1]; simp only [mkSimple]; omega
  have hloop1 : LoopInv s1 := ⟨h1, fun hlt => by omega⟩
  obtain ⟨s2, hrem2, h2, hl2, hpart2⟩ :=
    simple_removeMany_inv k s1 hloop1 (by omega)
  obtain ⟨hf2, hr2, _⟩ := hpart2 (by omega)
  rw [hl1] at hrem2 hl2
  have hf2' : s2.frontIdx = (k : Int) := by omega
  have hr2' : s2.rearIdx = 9 := by omega
  obtain ⟨s3, hrem3, h3, hl3, _⟩ :=
    simple_removeMany_inv (CAPACITY - k) s2 h2 (by
      show ((10 - k : Nat) : Int) ≤ s2.rearIdx - s2.frontIdx + 1
      omega)
  have hdl : (vs.drop k).length = CAPACITY - k := by
    rw [List.length_drop, hv]
  rw [hl2] at hrem3 hl3
  rw [List.take_of_length_le (le_of_eq hdl)] at hrem3
  rw [List.drop_of_length_le (le_of_eq hdl)] at hl3
  obtain ⟨hf3, hr3⟩ := loopInv_of_empty s3 h3 hl3
  rw [hv] at hins
  refine ⟨s1, s2, s3, hins, hrem2, ?_, hdl, (isFull_iff s2).mpr hr2', hf2',
    by rw [hr2', cap_cast]; rfl, fun v => simple_insertQ_full_eq s2 v hr2', hrem3, hf3, hr3, ?_, ?_⟩
  · rw [printQueue_eq s2 h2.1, hl2]
  · rw [← Bool.not_eq_true, isFull_iff]; omega
  · intro v
    obtain ⟨s4, he4, _, _, _, _, _⟩ := simple_insertQ_inv s3 v h3.1 (by omega)
    rw [hl3, List.nil_append] at he4
    exact ⟨s4, he4⟩

theorem simple_partial_drain_witness :
    ∃ s1 s2 s3,
      insertMany (mkSimple fun _ => 0) [20, 21, 22, 23, 24, 25, 26, 27, 28, 29] =
        some (List.replicate CAPACITY true, s1) ∧
      removeMany s1 4 = some ([some 20, some 21, some 22, some 23], s2) ∧
      printQueue s2 = some [24, 25, 26, 27, 28, 29] ∧
      ([24, 25, 26, 27, 28, 29] : List Int).length = CAPACITY - 4 ∧
      s2.isFull = true ∧ s2.frontIdx = 4 ∧ s2.rearIdx = (CAPACITY : Int) - 1 ∧
      (∀ v, insertQ s2 v = some (none, s2)) ∧
      removeMany s2 (CAPACITY - 4) =
        some ([some 24, some 25, some 26, some 27, some 28, some 29], s3) ∧
      s3.frontIdx = 0 ∧ s3.rearIdx = -1 ∧ s3.isFull = false ∧
      (∀ v, ∃ s4, insertQ s3 v = some (some [v], s4)) :=
  simple_partial_drain (fun _ => 0) [20, 21, 22, 23, 24, 25, 26, 27, 28, 29] 4
    rfl (by decide) (by decide)

/-- C16: reset on drain.  Every sequence of `loop()` steps from the initial
state runs to a state, and a remove step (`removeQ` followed by
`resetIfEmpty`) from there returns; when it leaves the queue empty the result
has `frontIdx == 0` and `rearIdx == -1`, and `CAPACITY` consecutive inserts
are stored from there. -/
theorem simple_reset_on_drain (d : Fin CAPACITY → Int) (cs : List Call) :
    ∃ s s1, loopRun (mkSimple d) cs = some s ∧ loopStep s Call.remove = some s1 ∧
      (s1.isEmpty = true →
        s1.frontIdx = 0 ∧ s1.rearIdx = -1 ∧
        ∀ vs : List Int, vs.length = CAPACITY →
          ∃ s2, insertMany s1 vs = some (List.replicate CAPACITY true, s2) ∧
            printQueue s2 = some vs) := by
  obtain ⟨s, hrun, h⟩ := loopRun_inv cs (mkSimple d) (loopInv_mkSimple d)
  obtain ⟨s1, hstep, h1⟩ := loopStep_inv s Call.remove h
  refine ⟨s, s1, hrun, hstep, ?_⟩
  intro he
  rw [isEmpty_iff] at he
  obtain ⟨hf, hr⟩ := h1.2 he
  refine ⟨hf, hr, ?_⟩
  intro vs hv
  have hv' : vs.length = 10 := hv
  obtain ⟨s2, hins, h2, _, _, hl2⟩ := simple_insertMany_inv vs s1 h1.1 (by omega)
  have hl1 : live s1 = [] := by
    have hz : (s1.rearIdx - s1.frontIdx + 1).toNat = 0 := by omega
    simp [live, hz]
  rw [hv] at hins
  rw [hl1, List.nil_append] at hl2
  exact ⟨s2, hins, by rw [printQueue_eq s2 h2, hl2]⟩

/-- C18: index safety of the simple queue.  Every sequence of `insertQ`,
`removeQ` and `resetIfEmpty` calls, in any order, from `frontIdx = 0`,
`rearIdx = -1` runs to a state with `0 <= frontIdx <= rearIdx + 1 <= CAPACITY`;
there the write of `insertQ` (at `rearIdx + 1`, when not full) and the read of
`removeQ` (at `frontIdx`, when not empty) are inside `[0, CAPACITY)`, the
number of live elements `rearIdx - frontIdx + 1` is in `[0, CAPACITY]`, and
both functions return. -/
theorem simple_index_safety (d : Fin CAPACITY → Int) (cs : List Op) :
    ∃ s, applyAll (mkSimple d) cs = some s ∧
      0 ≤ s.frontIdx ∧ s.frontIdx ≤ s.rearIdx + 1 ∧ s.rearIdx + 1 ≤ (CAPACITY : Int) ∧
      (s.isFull = false → 0 ≤ s.rearIdx + 1 ∧ s.rearIdx + 1 < (CAPACITY : Int) ∧
        ∀ v, ∃ a, writeAt s.queueArr (s.rearIdx + 1) v = some a) ∧
      (s.isEmpty = false → 0 ≤ s.frontIdx ∧ s.frontIdx < (CAPACITY : Int) ∧
        ∃ x, readAt s.queueArr s.frontIdx = some x) ∧
      0 ≤ s.rearIdx - s.frontIdx + 1 ∧ s.rearIdx - s.frontIdx + 1 ≤ (CAPACITY : Int) ∧
      (∀ v, ∃ r s1, insertQ s v = some (r, s1)) ∧
      (∃ r s1, removeQ s = some (r, s1)) := by
  obtain ⟨s, hrun, h⟩ := applyAll_inv cs (mkSimple d) (inv_mkSimple d)
  obtain ⟨h0, h1, h2⟩ := h
  refine ⟨s, hrun, h0, h1, by rw [cap_cast]; exact h2, ?_, ?_, by omega,
    by rw [cap_cast]; omega, ?_, ?_⟩
  · intro hf
    rw [← Bool.not_eq_true, isFull_iff] at hf
    have hlt : s.rearIdx + 1 < ((CAPACITY : Nat) : Int) := by rw [cap_cast]; omega
    exact ⟨by omega, hlt, fun v => ⟨_, writeAt_eq s.queueArr (s.rearIdx + 1) v (by omega) hlt⟩⟩
  · intro he
    rw [← Bool.not_eq_true, isEmpty_iff] at he
    have hlt : s.frontIdx < ((CAPACITY : Nat) : Int) := by rw [cap_cast]; omega
    exact ⟨h0, hlt, ⟨_, readAt_eq s.queueArr s.frontIdx h0 hlt⟩⟩
  · intro v
    by_cases ht : s.rearIdx < 9
    · obtain ⟨s1, he, _⟩ := simple_insertQ_inv s v ⟨h0, h1, h2⟩ ht
      exact ⟨_, s1, he⟩
    · exact ⟨none, s, simple_insertQ_full_eq s v (by omega)⟩
  · by_cases ht : s.frontIdx ≤ s.rearIdx
    · obtain ⟨x, s1, he, _⟩ := simple_removeQ_inv s ⟨h0, h1, h2⟩ ht
      exact ⟨_, s1, he⟩
    · exact ⟨none, s, simple_removeQ_empty_eq s (not_le.mp ht)⟩

/-! ## The simple queue against the circular queue -/

theorem simple_stepObs_ref (s : SimpleQueue) (c : Call) (h : LoopInv s)
    (hpass : ∀ v, c = Call.insert v → s.isFull = false) :
    ∃ s1, stepObs s c = some ((CircularQueue.refStep (live s) c).1, s1) ∧
      loopStep s c = some s1 ∧ LoopInv s1 ∧
      live s1 = (CircularQueue.refStep (live s) c).2 ∧
      ((∃ v, c = Call.insert v) → (CircularQueue.refStep (live s) c).1.1 = true) := by
  have hlen := length_live s
  obtain ⟨⟨h0, h1, h2⟩, hreset⟩ := h
  cases c with
  | insert v =>
    have hf := hpass v rfl
    rw [← Bool.not_eq_true, isFull_iff] at hf
    obtain ⟨s1, he, hi, hfr, hr, _, hl⟩ := simple_insertQ_inv s v ⟨h0, h1, h2⟩ (by omega)
    have hlt : (live s).length < CircularQueue.CAP := by
      rw [hlen]; show (s.rearIdx - s.frontIdx + 1).toNat < 10; omega
    refine ⟨s1, ?_, ?_, ⟨hi, fun hlt1 => by omega⟩, ?_, ?_⟩
    · simp only [stepObs, he, Option.some_bind, printQueue_eq s1 hi, CircularQueue.refStep,
        if_pos hlt, hl, Option.isSome_some]
    · simp only [loopStep, he, Option.map_some']
    · simp only [CircularQueue.refStep, if_pos hlt, hl]
    · intro _
      simp only [CircularQueue.refStep, if_pos hlt]
  | remove =>
    by_cases ht : s.frontIdx ≤ s.rearIdx
    · obtain ⟨x, s1, he, hi, _, _, _, _, _, hl⟩ := simple_removeQ_inv s ⟨h0, h1, h2⟩ ht
      refine ⟨resetIfEmpty s1, ?_, ?_, loopInv_resetIfEmpty s1 hi, ?_, ?_⟩
      · simp only [stepObs, he, Option.some_bind, printQueue_eq _ (inv_resetIfEmpty s1 hi),
          live_resetIfEmpty, hl, CircularQueue.refStep, Option.isSome_some, Option.map_some']
      · simp only [loopStep, he, Option.map_some']
      · simp only [live_resetIfEmpty, hl, CircularQueue.refStep]
      · rintro ⟨v, hv⟩
        cases hv
    · have hl : live s = [] := by
        have hz : (s.rearIdx - s.frontIdx + 1).toNat = 0 := by omega
        simp [live, hz]
      have he := simple_removeQ_empty_eq s (not_le.mp ht)
      refine ⟨resetIfEmpty s, ?_, ?_, loopInv_resetIfEmpty s ⟨h0, h1, h2⟩, ?_, ?_⟩
      · simp only [stepObs, he, Option.some_bind,
          printQueue_eq _ (inv_resetIfEmpty s ⟨h0, h1, h2⟩), live_resetIfEmpty, hl,
          CircularQueue.refStep, Option.isSome_none, Option.map_none']
      · simp only [loopStep, he, Option.map_some']
      · simp only [live_resetIfEmpty, hl, CircularQueue.refStep]
      · rintro ⟨v, hv⟩
        cases hv

theorem simple_trace_ref (cs : List Call) :
    ∀ s : SimpleQueue, LoopInv s → insertsPass s cs = true →
      trace s cs = some (CircularQueue.refTrace (live s) cs) ∧
      List.Forall₂ (fun c t => (∃ v, c = Call.insert v) → t.1 = true) cs
        (CircularQueue.refTrace (live s) cs) := by
  induction cs with
  | nil => intro s _ _; exact ⟨rfl, List.Forall₂.nil⟩
  | cons c cs ih =>
    intro s h hpass
    have hfull : ∀ v, c = Call.insert v → s.isFull = false := by
      intro v hv
      subst hv
      simp only [insertsPass, Bool.and_eq_true, Bool.not_eq_true'] at hpass
      exact hpass.1
    obtain ⟨s1, he, hstep, hi, hl, hflag⟩ := simple_stepObs_ref s c h hfull
    have hpass1 : insertsPass s1 cs = true := by
      cases c with
      | insert v =>
        simp only [insertsPass, hstep, Bool.and_eq_true] at hpass
        exact hpass.2
      | remove =>
        simp only [insertsPass, hstep] at hpass
        exact hpass
    obtain ⟨htr, hall⟩ := ih s1 hi hpass1
    rw [hl] at htr hall
    refine ⟨?_, ?_⟩
    · simp only [trace, he, Option.some_bind, htr, CircularQueue.refTrace]
    · simp only [CircularQueue.refTrace]
      exact List.Forall₂.cons hflag hall

/-- C17: the simple queue is a special case of the circular queue.  For every
sequence of insert and remove events (a simple-queue remove being `removeQ`
followed by `resetIfEmpty`) in which the simple queue blocks no insert, both
programs run through and show the same thing event by event: the same flag,
so the circular queue blocks no insert and blocks the same removes; the same
value for every successful remove; and after every event the same live
elements, `queueArr[frontIdx..rearIdx]` against the walk from `front`. -/
theorem simple_special_case (d d1 : Fin CAPACITY → Int) (cs : List Call)
    (hpass : insertsPass (mkSimple d) cs = true) :
    ∃ ts, trace (mkSimple d) cs = some ts ∧
      CircularQueue.trace (CircularQueue.mkQueue d1) cs = some ts ∧
      List.Forall₂ (fun c t => (∃ v, c = Call.insert v) → t.1 = true) cs ts := by
  obtain ⟨htr, hall⟩ := simple_trace_ref cs (mkSimple d) (loopInv_mkSimple d) hpass
  rw [live_mkSimple] at htr hall
  have hc := CircularQueue.trace_ref cs (CircularQueue.mkQueue d1) (CircularQueue.inv_mkQueue d1)
  rw [CircularQueue.contents_mkQueue] at hc
  exact ⟨_, htr, hc, hall⟩

theorem simple_special_case_witness :
    insertsPass (mkSimple fun _ => 0)
        [Call.insert 5, Call.insert 6, Call.remove, Call.remove, Call.remove, Call.insert 7]
      = true ∧
    ∃ ts, trace (mkSimple fun _ => 0)
        [Call.insert 5, Call.insert 6, Call.remove, Call.remove, Call.remove, Call.insert 7]
        = some ts ∧
      CircularQueue.trace (CircularQueue.mkQueue fun _ => 1)
        [Call.insert 5, Call.insert 6, Call.remove, Call.remove, Call.remove, Call.insert 7]
        = some ts ∧
      List.Forall₂ (fun c t => (∃ v, c = Call.insert v) → t.1 = true)
        [Call.insert 5, Call.insert 6, Call.remove, Call.remove, Call.remove, Call.insert 7] ts :=
  ⟨rfl, simple_special_case (fun _ => 0) (fun _ => 1)
    [Call.insert 5, Call.insert 6, Call.remove, Call.remove, Call.remove, Call.insert 7] rfl⟩

/-! ## The demo values -/

theorem demoInv_mkSimple (d : Fin CAPACITY → Int) : DemoInv (mkSimple d) := by
  refine ⟨loopInv_mkSimple d, ?_, ?_⟩
  · rw [live_mkSimple]; exact List.chain'_nil
  · intro _ x hx
    rw [live_mkSimple] at hx
    cases hx

theorem press_A_inv (s : SimpleQueue) (h : DemoInv s)
    (hnv : s.nextValue + 1 ≤ CircularQueue.INT_MAX) :
    ∃ f s1, press s Button.A = some (some (s.nextValue, f), s1) ∧ DemoInv s1 ∧
      s1.nextValue = s.nextValue + 1 := by
  obtain ⟨⟨hinv, hreset⟩, hchain, hlast⟩ := h
  have hincr : incr s.nextValue = some (s.nextValue + 1) := by
    unfold incr
    rw [if_pos hnv]
  have hinv1 : Inv { s with nextValue := s.nextValue + 1 } := hinv
  have hlive1 : live { s with nextValue := s.nextValue + 1 } = live s := rfl
  by_cases ht : s.rearIdx < 9
  · obtain ⟨s1, he, hi, hf, hr, hn, hl⟩ :=
      simple_insertQ_inv { s with nextValue := s.nextValue + 1 } s.nextValue hinv1 ht
    rw [hlive1] at hl
    refine ⟨true, s1, ?_, ⟨⟨hi, ?_⟩, ?_, ?_⟩, hn⟩
    · simp only [press, hincr, Option.some_bind, he, Option.isSome_some]
    · intro hlt
      have := hinv.2.1
      have hf' : s1.frontIdx = s.frontIdx := hf
      have hr' : s1.rearIdx = s.rearIdx + 1 := hr
      omega
    · rw [hl, List.chain'_append]
      refine ⟨hchain, List.chain'_singleton _, ?_⟩
      intro x hx y hy
      simp only [List.head?_cons, Option.mem_def, Option.some.injEq] at hy
      have := hlast ht x hx
      omega
    · intro _ x hx
      rw [hl, List.getLast?_concat] at hx
      have hn' : s1.nextValue = s.nextValue + 1 := hn
      simp only [Option.some.injEq] at hx
      omega
  · have hc : s.rearIdx = 9 := by have := hinv.2.2; omega
    have he := simple_insertQ_full_eq { s with nextValue := s.nextValue + 1 } s.nextValue hc
    refine ⟨false, _, ?_, ⟨⟨hinv1, hreset⟩, hchain, ?_⟩, rfl⟩
    · simp only [press, hincr, Option.some_bind, he, Option.isSome_none]
    · intro hlt
      exact absurd hlt ht

theorem press_B_inv (s : SimpleQueue) (h : DemoInv s) :
    ∃ s1, press s Button.B = some (none, s1) ∧ DemoInv s1 ∧ s1.nextValue = s.nextValue := by
  obtain ⟨⟨hinv, hreset⟩, hchain, hlast⟩ := h
  by_cases ht : s.frontIdx ≤ s.rearIdx
  · obtain ⟨x, s1, he, hi, hf, hr, _, hn, _, hl⟩ := simple_removeQ_inv s hinv ht
    refine ⟨resetIfEmpty s1, ?_, ⟨loopInv_resetIfEmpty s1 hi, ?_, ?_⟩, ?_⟩
    · simp only [press, he, Option.some_bind]
    · rw [live_resetIfEmpty]
      rw [hl] at hchain
      exact (List.chain'_cons'.mp hchain).2
    · intro hlt y hy
      rw [live_resetIfEmpty] at hy
      have hne : live s1 ≠ [] := by
        intro hnil
        rw [hnil] at hy
        cases hy
      have hlen := length_live s1
      have hpos : 0 < (live s1).length := List.length_pos.mpr hne
      have hne1 : s1.frontIdx ≤ s1.rearIdx := by omega
      rw [resetIfEmpty_of_nonempty s1 hne1] at hlt
      rw [nextValue_resetIfEmpty, hn]
      apply hlast (by omega) y
      rw [hl, List.getLast?_cons, hy]
      rfl
    · rw [nextValue_resetIfEmpty, hn]
  · have he := simple_removeQ_empty_eq s (not_le.mp ht)
    have hl : live s = [] := by
      have hz : (s.rearIdx - s.frontIdx + 1).toNat = 0 := by omega
      simp [live, hz]
    refine ⟨resetIfEmpty s, ?_, ⟨loopInv_resetIfEmpty s hinv, ?_, ?_⟩,
      nextValue_resetIfEmpty s⟩
    · simp only [press, he, Option.some_bind]
    · rw [live_resetIfEmpty]; exact hchain
    · intro _ y hy
      rw [live_resetIfEmpty, hl] at hy
      cases hy

theorem drive_inv (bs : List Button) :
    ∀ s : SimpleQueue, DemoInv s →
      s.nextValue + (bs.count Button.A : Int) ≤ CircularQueue.INT_MAX →
      ∃ log s1, drive s bs = some (log, s1) ∧ DemoInv s1 ∧
        s1.nextValue = s.nextValue + (bs.count Button.A : Int) ∧
        log.map Prod.fst =
          (List.range (bs.count Button.A)).map fun (k : Nat) => s.nextValue + (k : Int) := by
  induction bs with
  | nil => intro s h _; exact ⟨[], s, rfl, h, by simp, by simp⟩
  | cons b bs ih =>
    intro s h hmax
    cases b with
    | A =>
      have hcount : (Button.A :: bs).count Button.A = bs.count Button.A + 1 := by
        simp [List.count_cons]
      rw [hcount] at hmax ⊢
      simp only [Nat.cast_add, Nat.cast_one] at hmax
      obtain ⟨f, s1, he, hi, hn⟩ := press_A_inv s h (by omega)
      obtain ⟨log, s2, hd, hi2, hn2, hlog⟩ := ih s1 hi (by rw [hn]; omega)
      refine ⟨(s.nextValue, f) :: log, s2, ?_, hi2, ?_, ?_⟩
      · simp only [drive, he, Option.some_bind, hd, Option.toList_some, List.singleton_append]
      · rw [hn2, hn]; push_cast; omega
      · rw [List.map_cons, hlog, List.range_succ_eq_map, List.map_cons, List.map_map, hn]
        congr 1
        · simp
        · apply List.map_congr_left
          intro k _
          simp only [Function.comp_apply]
          push_cast
          omega
    | B =>
      have hcount : (Button.B :: bs).count Button.A = bs.count Button.A := by
        simp [List.count_cons]
      rw [hcount] at hmax ⊢
      obtain ⟨s1, he, hi, hn⟩ := press_B_inv s h
      obtain ⟨log, s2, hd, hi2, hn2, hlog⟩ := ih s1 hi (by rw [hn]; exact hmax)
      refine ⟨log, s2, ?_, hi2, by rw [hn2, hn], by rw [hlog, hn]⟩
      simp only [drive, he, Option.some_bind, hd, Option.toList_none, List.nil_append]

/-- C19, as stated, fails: eleven presses of button A, ten of button B and one
more of button A, from the initial state.  The eleventh press of A is blocked
and still uses up the value `10`, so the eleventh value stored is `11`. -/
theorem demo_values_counterexample :
    ∃ log s,
      drive (mkSimple fun _ => 0)
        (List.replicate 11 Button.A ++ List.replicate 10 Button.B ++ [Button.A]) =
          some (log, s) ∧
      stored log = [0, 1, 2, 3, 4, 5, 6, 7, 8, 9, 11] ∧
      (stored log).get? 10 = some 11 ∧ (stored log).get? 10 ≠ some 10 ∧
      printQueue s = some [11] :=
  ⟨_, _, rfl, rfl, rfl, by decide, rfl⟩

/-- C19, amended: for every sequence of button events with at most `INT_MAX`
presses of button A, `loop()` runs through from the initial state; the `k`-th
call of `insertQ`, stored or blocked, is given the value `k-1`; the values
stored are strictly increasing, and they are `0, 1, 2, ...` without a gap when
no call was blocked; the live elements `queueArr[frontIdx..rearIdx]` increase
by exactly one from each to the next. -/
theorem demo_values (d : Fin CAPACITY → Int) (bs : List Button)
    (hb : (bs.count Button.A : Int) ≤ CircularQueue.INT_MAX) :
    ∃ log s, drive (mkSimple d) bs = some (log, s) ∧
      log.map Prod.fst = (List.range (bs.count Button.A)).map (fun (k : Nat) => (k : Int)) ∧
      List.Pairwise (fun a b => a < b) (stored log) ∧
      ((∀ p ∈ log, p.2 = true) →
        stored log = (List.range (bs.count Button.A)).map (fun (k : Nat) => (k : Int))) ∧
      ∃ xs, printQueue s = some xs ∧ List.Chain' (fun a b => b = a + 1) xs := by
  obtain ⟨log, s, hd, hi, _, hlog⟩ :=
    drive_inv bs (mkSimple d) (demoInv_mkSimple d) (by simp only [mkSimple]; omega)
  have hlog' : log.map Prod.fst
      = (List.range (bs.count Button.A)).map (fun (k : Nat) => (k : Int)) := by
    rw [hlog]
    apply List.map_congr_left
    intro k _
    simp only [mkSimple]
    omega
  have hpair : List.Pairwise (fun a b => a < b) (log.map Prod.fst) := by
    rw [hlog']
    exact List.Pairwise.map _ (fun a b hab => by omega) (List.pairwise_lt_range _)
  refine ⟨log, s, hd, hlog', ?_, ?_, live s, printQueue_eq s hi.1.1, hi.2.1⟩
  · exact List.Pairwise.sublist (List.Sublist.map _ (List.filter_sublist log)) hpair
  · intro hall
    have hfil : log.filter (fun p => p.2) = log := List.filter_eq_self.mpr hall
    simp only [stored, hfil]
    exact hlog'

theorem demo_values_witness :
    (([Button.A, Button.A, Button.B, Button.A].count Button.A : Nat) : Int)
        ≤ CircularQueue.INT_MAX ∧
    ∃ log s, drive (mkSimple fun _ => 0) [Button.A, Button.A, Button.B, Button.A]
        = some (log, s) ∧
      log.map Prod.fst =
        (List.range ([Button.A, Button.A, Button.B, Button.A].count Button.A)).map
          (fun (k : Nat) => (k : Int)) ∧
      List.Pairwise (fun a b => a < b) (stored log) ∧
      ((∀ p ∈ log, p.2 = true) →
        stored log =
          (List.range ([Button.A, Button.A, Button.B, Button.A].count Button.A)).map
            (fun (k : Nat) => (k : Int))) ∧
      ∃ xs, printQueue s = some xs ∧ List.Chain' (fun a b => b = a + 1) xs :=
  ⟨by decide, demo_values (fun _ => 0) [Button.A, Button.A, Button.B, Button.A] (by decide)⟩

end SimpleQueue
